import Mathlib

/-!
# Verification of the strava-art-website geometry pipeline

A shallow embedding, in Lean 4, of the geometry / signal-processing core of
the route-drawing web application: the normalized-to-geographic conversions,
the haversine distance and target-distance scaling, the overlay corner / edge /
center drag-handle geometry, the vector-path sampler's viewBox normalization,
the road-snapping waypoint decimation and segment stitching, and the raster
contour trace.

Numeric conventions: the JavaScript source computes in IEEE-754 doubles; this
embedding idealizes those numbers as exact rationals (`ℚ`) where the source
uses only field operations, and as reals (`ℝ`) where the source calls the
transcendental library functions (`Math.sin`, `Math.cos`, `Math.sqrt`,
`Math.atan2`).  `ℚ` and `ℝ` have no NaN / Infinity values, so the source's
`isNaN` filters are modelled as the identity they are on finite inputs; this
is noted at each definition concerned.
-/

namespace StravaArt

/-! ## RouteComposer: normalized-unit-square to geographic conversion

Embedded from `normalizedToMapCoords` (src/unnamed/part_007, lines 255-274) and
`svgToMapCoordinates` (src/src/App.jsx, lines 305-318).

A geographic bounding box is the Leaflet array `[[south, west], [north, east]]`;
we name its four entries.  A normalized point is `(u, v)` with `u` the
horizontal and `v` the downward vertical image coordinate.
-/

/-- A geographic bounding box `[[south, west], [north, east]]`. -/
structure GeoBounds where
  south : ℚ
  west : ℚ
  north : ℚ
  east : ℚ
  deriving DecidableEq, Repr

/-- `normalizedToMapCoords(normalizedPoints, bounds)` from src/unnamed/part_007
lines 255-274: `lat = north − v·height`, `lng = west + u·width`.  The source's
two `isNaN` filters cannot fire over `ℚ` (no NaN exists) and are modelled as
the identity; the `!bounds || length === 0` early return is the `[]` case of
`List.map`. -/
def normalizedToMapCoords (normalizedPoints : List (ℚ × ℚ)) (bounds : GeoBounds) :
    List (ℚ × ℚ) :=
  if normalizedPoints.length = 0 then []
  else
    normalizedPoints.map (fun p =>
      (bounds.north - p.2 * (bounds.north - bounds.south),
       bounds.west + p.1 * (bounds.east - bounds.west)))

/-- `svgToMapCoordinates(svgPoints, bounds)` from src/src/App.jsx lines 305-318:
`lat = center.lat + (v − 0.5)·(north − south)`, `lng = center.lng +
(u − 0.5)·(east − west)`, where `center` is Leaflet's
`((south+north)/2, (west+east)/2)`.  The `isNaN` filters are the identity
over `ℚ`. -/
def svgToMapCoordinates (svgPoints : List (ℚ × ℚ)) (bounds : GeoBounds) :
    List (ℚ × ℚ) :=
  svgPoints.map (fun point =>
    ((bounds.south + bounds.north) / 2 + (point.2 - 1/2) * (bounds.north - bounds.south),
     (bounds.west + bounds.east) / 2 + (point.1 - 1/2) * (bounds.east - bounds.west)))

/-- A demonstration box with `south = 0`, `north = 10`, `west = 0`, `east = 10`. -/
def demoBounds : GeoBounds := ⟨0, 0, 10, 10⟩

/-- C1.  `normalizedToMapCoords` maps every `(u, v)` to
`(north − v·height, west + u·width)` exactly as claimed, but the sibling
conversion `svgToMapCoordinates` (the one the SVG-upload path uses) does not
invert Y: on the box `south = 0, north = 10, west = east-span 10`, the point
`(u, v) = (0, 0)` lands at `lat = 0` (the south edge) instead of the claimed
`lat = north − 0·height = 10`. -/
theorem c1_normalized_to_geo_inverts_y_only_in_part_007 :
    (∀ (pts : List (ℚ × ℚ)) (b : GeoBounds),
        normalizedToMapCoords pts b =
          pts.map (fun p => (b.north - p.2 * (b.north - b.south),
                             b.west + p.1 * (b.east - b.west)))) ∧
    svgToMapCoordinates [(0, 0)] demoBounds = [(0, 0)] ∧
    demoBounds.north - 0 * (demoBounds.north - demoBounds.south) = 10 := by
  refine ⟨fun pts b => ?_, by norm_num [svgToMapCoordinates, demoBounds],
    by norm_num [demoBounds]⟩
  cases pts with
  | nil => simp [normalizedToMapCoords]
  | cons p ps => simp [normalizedToMapCoords]

/-! ## VectorPathSampler

Embedded from `parseSVGPath` (src/src/App.jsx, lines 218-302) and
`shapeToPoints` (src/src/App.jsx, lines 377-455).

`parseSVGPath` receives the path data already tokenized: the source's regex
splits the string into single-letter commands with numeric operand lists, and
letters outside the recognized `M/L/H/V/C/Z` set (which the regex also
captures: `S,Q,T,A`) fall through every branch, modelled by the `other`
constructor.  Operand lists are modelled as the rationals the source's
`Number(...)` produced; a malformed token would be NaN in the source, which
`ℚ` cannot represent, so the embedding covers the well-formed-token runs.
Trailing incomplete operand groups (an odd trailing coordinate of `L`, an
incomplete 6-group of `C`, a too-short `M`) would make the source compute with
`undefined`/NaN; the embedding processes only the complete groups. -/

/-- A tokenized path command: uppercase = absolute (`rel = false`),
lowercase = relative (`rel = true`). -/
inductive PathCmd where
  | M (rel : Bool) (coords : List ℚ)
  | L (rel : Bool) (coords : List ℚ)
  | H (rel : Bool) (coords : List ℚ)
  | V (rel : Bool) (coords : List ℚ)
  | C (rel : Bool) (coords : List ℚ)
  | Z
  | other
  deriving DecidableEq, Repr

/-- The `L`/`l` branch: consume coordinate pairs, appending each endpoint;
returns the new current point and the appended points, in order. -/
def lineToPoints : Bool → ℚ → ℚ → List ℚ → (ℚ × ℚ) × List (ℚ × ℚ)
  | _, cx, cy, [] => ((cx, cy), [])
  | _, cx, cy, [_] => ((cx, cy), [])
  | rel, cx, cy, x :: y :: rest =>
      let nx := if rel then cx + x else x
      let ny := if rel then cy + y else y
      let r := lineToPoints rel nx ny rest
      (r.1, (nx, ny) :: r.2)

/-- The `H`/`h` branch: each operand moves the current x, appending a point. -/
def hToPoints : Bool → ℚ → ℚ → List ℚ → ℚ × List (ℚ × ℚ)
  | _, cx, _, [] => (cx, [])
  | rel, cx, cy, x :: rest =>
      let nx := if rel then cx + x else x
      let r := hToPoints rel nx cy rest
      (r.1, (nx, cy) :: r.2)

/-- The `V`/`v` branch: each operand moves the current y, appending a point. -/
def vToPoints : Bool → ℚ → ℚ → List ℚ → ℚ × List (ℚ × ℚ)
  | _, _, cy, [] => (cy, [])
  | rel, cx, cy, y :: rest =>
      let ny := if rel then cy + y else y
      let r := vToPoints rel cx ny rest
      (r.1, (cx, ny) :: r.2)

/-- One Bernstein-basis coordinate of the cubic Bézier sample:
`(1−t)³p0 + 3(1−t)²t·p1 + 3(1−t)t²·p2 + t³p3`. -/
def bez (p0 p1 p2 p3 t : ℚ) : ℚ :=
  (1 - t) ^ 3 * p0 + 3 * (1 - t) ^ 2 * t * p1 + 3 * (1 - t) * t ^ 2 * p2 + t ^ 3 * p3

/-- The `C`/`c` branch: consume 6-operand groups; each group is sampled at
`t = 0.1, 0.2, …, 1.0` (the source's float loop `for t = 0.1; t <= 1;
t += 0.1`, idealized to the exact ten rationals `k/10`), then the current
point becomes the group's endpoint. -/
def cubicToPoints : Bool → ℚ → ℚ → List ℚ → (ℚ × ℚ) × List (ℚ × ℚ)
  | rel, cx, cy, a :: b :: c :: d :: e :: f :: rest =>
      let x1 := if rel then cx + a else a
      let y1 := if rel then cy + b else b
      let x2 := if rel then cx + c else c
      let y2 := if rel then cy + d else d
      let x3 := if rel then cx + e else e
      let y3 := if rel then cy + f else f
      let samples := (List.range 10).map (fun k =>
        (bez cx x1 x2 x3 ((k + 1 : ℚ) / 10), bez cy y1 y2 y3 ((k + 1 : ℚ) / 10)))
      let r := cubicToPoints rel x3 y3 rest
      (r.1, samples ++ r.2)
  | _, cx, cy, _ => ((cx, cy), [])

/-- The mutable state of `parseSVGPath`'s command loop: current point,
subpath start point, and the accumulated points. -/
structure PathState where
  cx : ℚ
  cy : ℚ
  sx : ℚ
  sy : ℚ
  points : List (ℚ × ℚ)
  deriving Repr

/-- One iteration of the `commands.forEach` loop of `parseSVGPath`. -/
def processCmd (st : PathState) : PathCmd → PathState
  | .M rel coords =>
      let nx := if rel then st.cx + coords.getD 0 0 else coords.getD 0 0
      let ny := if rel then st.cy + coords.getD 1 0 else coords.getD 1 0
      ⟨nx, ny, nx, ny, st.points ++ [(nx, ny)]⟩
  | .L rel coords =>
      let r := lineToPoints rel st.cx st.cy coords
      ⟨r.1.1, r.1.2, st.sx, st.sy, st.points ++ r.2⟩
  | .H rel coords =>
      let r := hToPoints rel st.cx st.cy coords
      ⟨r.1, st.cy, st.sx, st.sy, st.points ++ r.2⟩
  | .V rel coords =>
      let r := vToPoints rel st.cx st.cy coords
      ⟨st.cx, r.1, st.sx, st.sy, st.points ++ r.2⟩
  | .C rel coords =>
      let r := cubicToPoints rel st.cx st.cy coords
      ⟨r.1.1, r.1.2, st.sx, st.sy, st.points ++ r.2⟩
  | .Z =>
      if st.points.length ≠ 0 ∧ (st.cx ≠ st.sx ∨ st.cy ≠ st.sy) then
        ⟨st.cx, st.cy, st.sx, st.sy, st.points ++ [(st.sx, st.sy)]⟩
      else st
  | .other => st

/-- The source-space point list accumulated by `parseSVGPath` before its
normalization step. -/
def rawPathPoints (cmds : List PathCmd) : List (ℚ × ℚ) :=
  (cmds.foldl processCmd ⟨0, 0, 0, 0, []⟩).points

/-- The four numbers of a parsed `viewBox` attribute, in source order. -/
structure ViewBox where
  v0 : ℚ
  v1 : ℚ
  v2 : ℚ
  v3 : ℚ
  deriving DecidableEq, Repr

/-- `parseSVGPath(pathData, viewBox)` from src/src/App.jsx lines 218-302.
The source computes `svgWidth = vb[2] − vb[0]`, `svgHeight = vb[3] − vb[1]`
and normalizes each point by `(p − (vb[0], vb[1])) / (svgWidth, svgHeight)`
only when `svgWidth > 0 && svgHeight > 0`; otherwise it returns the raw
points unchanged. -/
def parseSVGPath (cmds : List PathCmd) (vb : ViewBox) : List (ℚ × ℚ) :=
  if 0 < vb.v2 - vb.v0 ∧ 0 < vb.v3 - vb.v1 then
    (rawPathPoints cmds).map (fun p =>
      ((p.1 - vb.v0) / (vb.v2 - vb.v0), (p.2 - vb.v1) / (vb.v3 - vb.v1)))
  else rawPathPoints cmds

/-- An SVG shape element with the attributes `shapeToPoints` reads.  The
`polygon`/`polyline` point-attribute is modelled as the list of coordinate
pairs the source's tokenizer produced. -/
inductive SvgShape where
  | rect (x y w h : ℝ)
  | circle (cx cy r : ℝ)
  | ellipse (cx cy rx ry : ℝ)
  | polygon (pts : List (ℝ × ℝ))
  | polyline (pts : List (ℝ × ℝ))
  | line (x1 y1 x2 y2 : ℝ)

/-- The raw (pre-normalization) point list `shapeToPoints` builds per element
kind: rectangle as 5 closing corners, circle/ellipse as 33 parametric samples
(`for i = 0; i <= 32`), polygon closed with its first vertex, polyline/line
as the listed vertices. -/
noncomputable def shapePoints : SvgShape → List (ℝ × ℝ)
  | .rect x y w h => [(x, y), (x + w, y), (x + w, y + h), (x, y + h), (x, y)]
  | .circle cx cy r =>
      (List.range 33).map (fun i =>
        (cx + r * Real.cos ((i / 32 : ℝ) * Real.pi * 2),
         cy + r * Real.sin ((i / 32 : ℝ) * Real.pi * 2)))
  | .ellipse cx cy rx ry =>
      (List.range 33).map (fun i =>
        (cx + rx * Real.cos ((i / 32 : ℝ) * Real.pi * 2),
         cy + ry * Real.sin ((i / 32 : ℝ) * Real.pi * 2)))
  | .polygon pts => match pts with
      | [] => []
      | p :: rest => (p :: rest) ++ [p]
  | .polyline pts => pts
  | .line x1 y1 x2 y2 => [(x1, y1), (x2, y2)]

/-- The `viewBox` numbers as reals, for the shape-element pipeline. -/
structure ViewBoxR where
  v0 : ℝ
  v1 : ℝ
  v2 : ℝ
  v3 : ℝ

/-- `shapeToPoints(element, viewBox)` from src/src/App.jsx lines 377-455.
The source computes `svgWidth = vb[2] − vb[0] || 100` (a JavaScript
zero-to-100 fallback, kept verbatim) and likewise for the height, and
normalizes only when `points.length > 0 && svgWidth > 0 && svgHeight > 0`,
returning `[]` otherwise.  The `isNaN` filters are the identity over `ℝ`. -/
noncomputable def shapeToPoints (el : SvgShape) (vb : ViewBoxR) : List (ℝ × ℝ) :=
  if (shapePoints el).length ≠ 0 ∧
      0 < (if vb.v2 - vb.v0 = 0 then 100 else vb.v2 - vb.v0) ∧
      0 < (if vb.v3 - vb.v1 = 0 then 100 else vb.v3 - vb.v1) then
    (shapePoints el).map (fun p =>
      ((p.1 - vb.v0) / (if vb.v2 - vb.v0 = 0 then 100 else vb.v2 - vb.v0),
       (p.2 - vb.v1) / (if vb.v3 - vb.v1 = 0 then 100 else vb.v3 - vb.v1)))
  else []

/-- C7 counterexample.  The claim predicts empty output from the vector path
sampler whenever the viewBox width or height is non-positive; but
`parseSVGPath` on the single command `M 1 2` with the degenerate viewBox
`0 0 0 0` returns the non-empty un-normalized list `[(1, 2)]`. -/
theorem c7_counterexample_degenerate_viewbox_output_nonempty :
    parseSVGPath [PathCmd.M false [1, 2]] ⟨0, 0, 0, 0⟩ = [(1, 2)] ∧
    ([((1 : ℚ), (2 : ℚ))] : List (ℚ × ℚ)) ≠ [] := by
  constructor
  · simp [parseSVGPath, rawPathPoints, processCmd]
  · simp

/-- C7 amended.  On a zero-or-negative-size viewBox the sampler does not
divide: `parseSVGPath` skips normalization and returns the raw source-space
points unchanged (not the empty list), while `shapeToPoints` returns the
empty list when its computed width or height is negative (an exactly-zero
span is replaced by the source's `|| 100` fallback before the check). -/
theorem c7_degenerate_viewbox_skips_division :
    (∀ (cmds : List PathCmd) (vb : ViewBox),
        ¬(0 < vb.v2 - vb.v0 ∧ 0 < vb.v3 - vb.v1) →
        parseSVGPath cmds vb = rawPathPoints cmds) ∧
    (∀ (el : SvgShape) (vb : ViewBoxR),
        vb.v2 - vb.v0 < 0 ∨ vb.v3 - vb.v1 < 0 →
        shapeToPoints el vb = []) := by
  constructor
  · intro cmds vb h
    simp only [parseSVGPath, if_neg h]
  · intro el vb h
    rw [shapeToPoints, if_neg]
    rcases h with h | h
    · have h0 : ¬(vb.v2 - vb.v0 = 0) := by linarith
      rw [if_neg h0]
      rintro ⟨-, h1, -⟩
      linarith
    · have h0 : ¬(vb.v3 - vb.v1 = 0) := by linarith
      rw [if_neg h0]
      rintro ⟨-, -, h1⟩
      linarith

/-- C7 witness: the amended theorem applied at the `M 1 2`, viewBox `0 0 0 0`
input used by the counterexample. -/
theorem c7_witness :
    ¬((0 : ℚ) < 0 - 0 ∧ (0 : ℚ) < 0 - 0) ∧
    parseSVGPath [PathCmd.M false [1, 2]] ⟨0, 0, 0, 0⟩ =
      rawPathPoints [PathCmd.M false [1, 2]] := by
  have h : ¬((0 : ℚ) < 0 - 0 ∧ (0 : ℚ) < 0 - 0) := by norm_num
  exact ⟨h, c7_degenerate_viewbox_skips_division.1 [PathCmd.M false [1, 2]] ⟨0, 0, 0, 0⟩ h⟩

/-! ## GeometryPrimitives and RouteComposer: haversine and distance scaling

Embedded from `calculateDistance` (src/src/App.jsx lines 193-206),
`calculateRouteDistance` (lines 209-215) and the scale-to-target-distance
step shared by `handleSVGUpload` (lines 594-605) and `imageToRoute`
(lines 737-755); the spec names the latter `scaleToTargetDistance`. -/

/-- JavaScript's `Math.atan2(y, x)`. -/
noncomputable def atan2 (y x : ℝ) : ℝ :=
  if 0 < x then Real.arctan (y / x)
  else if x < 0 ∧ 0 ≤ y then Real.arctan (y / x) + Real.pi
  else if x < 0 then Real.arctan (y / x) - Real.pi
  else if 0 < y then Real.pi / 2
  else if y < 0 then -(Real.pi / 2)
  else 0

/-- `calculateDistance(point1, point2)`: haversine distance in miles with
`R = 3959`. -/
noncomputable def calculateDistance (p1 p2 : ℝ × ℝ) : ℝ :=
  3959 * (2 * atan2
    (Real.sqrt (Real.sin ((p2.1 - p1.1) * Real.pi / 180 / 2) *
        Real.sin ((p2.1 - p1.1) * Real.pi / 180 / 2) +
      Real.cos (p1.1 * Real.pi / 180) * Real.cos (p2.1 * Real.pi / 180) *
        Real.sin ((p2.2 - p1.2) * Real.pi / 180 / 2) *
        Real.sin ((p2.2 - p1.2) * Real.pi / 180 / 2)))
    (Real.sqrt (1 - (Real.sin ((p2.1 - p1.1) * Real.pi / 180 / 2) *
        Real.sin ((p2.1 - p1.1) * Real.pi / 180 / 2) +
      Real.cos (p1.1 * Real.pi / 180) * Real.cos (p2.1 * Real.pi / 180) *
        Real.sin ((p2.2 - p1.2) * Real.pi / 180 / 2) *
        Real.sin ((p2.2 - p1.2) * Real.pi / 180 / 2)))))

/-- `calculateRouteDistance(routePoints)`: haversine length summed over
consecutive pairs. -/
noncomputable def calculateRouteDistance : List (ℝ × ℝ) → ℝ
  | p :: q :: rest => calculateDistance p q + calculateRouteDistance (q :: rest)
  | _ => 0

/-- The arithmetic mean of the latitudes (`centerLat` in the source). -/
noncomputable def centroidLat (pts : List (ℝ × ℝ)) : ℝ :=
  (pts.map Prod.fst).sum / pts.length

/-- The arithmetic mean of the longitudes (`centerLng` in the source). -/
noncomputable def centroidLng (pts : List (ℝ × ℝ)) : ℝ :=
  (pts.map Prod.snd).sum / pts.length

/-- The scale-to-target-distance step: when both the current haversine length
and the target are positive, scale every point's offset from the point-set
centroid by `targetMiles / currentLength` and re-add the centroid; otherwise
return the route unchanged. -/
noncomputable def scaleToTargetDistance (pts : List (ℝ × ℝ)) (targetMiles : ℝ) :
    List (ℝ × ℝ) :=
  if 0 < calculateRouteDistance pts ∧ 0 < targetMiles then
    pts.map (fun p =>
      (centroidLat pts + (p.1 - centroidLat pts) * (targetMiles / calculateRouteDistance pts),
       centroidLng pts + (p.2 - centroidLng pts) * (targetMiles / calculateRouteDistance pts)))
  else pts

theorem sum_fst_scaled (pts : List (ℝ × ℝ)) (cA cB s : ℝ) :
    ((pts.map (fun p => (cA + (p.1 - cA) * s, cB + (p.2 - cB) * s))).map Prod.fst).sum
      = pts.length * cA + ((pts.map Prod.fst).sum - pts.length * cA) * s := by
  induction pts with
  | nil => simp
  | cons a t ih =>
      simp only [List.map_cons, List.sum_cons, List.length_cons, ih]
      push_cast
      ring

theorem sum_snd_scaled (pts : List (ℝ × ℝ)) (cA cB s : ℝ) :
    ((pts.map (fun p => (cA + (p.1 - cA) * s, cB + (p.2 - cB) * s))).map Prod.snd).sum
      = pts.length * cB + ((pts.map Prod.snd).sum - pts.length * cB) * s := by
  induction pts with
  | nil => simp
  | cons a t ih =>
      simp only [List.map_cons, List.sum_cons, List.length_cons, ih]
      push_cast
      ring

/-- C2 amended.  The scale-to-target-distance step preserves the point-set
centroid exactly, for every route and every target (the length clause of the
claim is refuted separately: uniform lat/lng scaling is a flat-earth
approximation whose haversine length can miss the target badly for routes
spanning large longitude ranges). -/
theorem c2_scaling_preserves_centroid :
    ∀ (pts : List (ℝ × ℝ)) (t : ℝ),
      centroidLat (scaleToTargetDistance pts t) = centroidLat pts ∧
      centroidLng (scaleToTargetDistance pts t) = centroidLng pts := by
  intro pts t
  by_cases h : 0 < calculateRouteDistance pts ∧ 0 < t
  · have hne : pts ≠ [] := by
      rintro rfl
      have h0 : calculateRouteDistance ([] : List (ℝ × ℝ)) = 0 := rfl
      rw [h0] at h
      exact lt_irrefl 0 h.1
    have hn : (pts.length : ℝ) ≠ 0 := by
      exact_mod_cast fun hz => hne (List.length_eq_zero.mp hz)
    rw [scaleToTargetDistance, if_pos h]
    constructor
    · rw [centroidLat, sum_fst_scaled, List.length_map, centroidLat]
      field_simp
    · rw [centroidLng, sum_snd_scaled, List.length_map, centroidLng]
      field_simp
  · rw [scaleToTargetDistance, if_neg h]
    exact ⟨rfl, rfl⟩

theorem calculateDistance_equator_quarter :
    calculateDistance (0, 0) (0, 90) = 3959 * (Real.pi / 2) := by
  have harg : (90 : ℝ) * Real.pi / 180 / 2 = Real.pi / 4 := by ring
  have key : Real.sqrt 2 / 2 * (Real.sqrt 2 / 2) = 1 / 2 := by
    rw [div_mul_div_comm, Real.mul_self_sqrt (by norm_num : (0:ℝ) ≤ 2)]
    norm_num
  have hpos : (0 : ℝ) < (Real.sqrt 2)⁻¹ := by positivity
  simp only [calculateDistance]
  norm_num [harg, key]
  rw [atan2, if_pos hpos, div_self (ne_of_gt hpos), Real.arctan_one]
  ring

theorem calculateDistance_wraparound_zero :
    calculateDistance (0, -135) (0, 225) = 0 := by
  have harg : (360 : ℝ) * Real.pi / 180 / 2 = Real.pi := by ring
  have harg2 : ((225 : ℝ) - -135) * Real.pi / 180 / 2 = Real.pi := by ring
  simp only [calculateDistance]
  norm_num [harg, harg2, Real.sin_pi]
  rw [atan2, if_pos (by norm_num : (0:ℝ) < 1)]
  norm_num

/-- C2 counterexample.  For the two-point equatorial route `(0,0) → (0,90)`
(haversine length `3959·π/2` miles) and the positive target
`d = 3959·2π` miles, the scaling step multiplies the longitude offsets by 4,
producing `(0,−135) → (0,225)` — a 360° longitude difference whose haversine
length is `0`, not within 0.1% of `d`. -/
theorem c2_counterexample_globe_spanning_route :
    ¬(|calculateRouteDistance
          (scaleToTargetDistance [((0 : ℝ), 0), (0, 90)] (3959 * (2 * Real.pi))) -
        3959 * (2 * Real.pi)| ≤ 3959 * (2 * Real.pi) * (1 / 1000)) := by
  have hL : calculateRouteDistance [((0 : ℝ), 0), (0, 90)] = 3959 * (Real.pi / 2) := by
    show calculateDistance (0, 0) (0, 90) + calculateRouteDistance [((0 : ℝ), 90)] = _
    rw [calculateDistance_equator_quarter]
    show 3959 * (Real.pi / 2) + 0 = _
    ring
  have hcond : 0 < calculateRouteDistance [((0 : ℝ), 0), (0, 90)] ∧
      0 < 3959 * (2 * Real.pi) := by
    rw [hL]
    constructor <;> positivity
  have hclat : centroidLat [((0 : ℝ), 0), (0, 90)] = 0 := by
    simp [centroidLat]
  have hclng : centroidLng [((0 : ℝ), 0), (0, 90)] = 45 := by
    simp [centroidLng]
    norm_num
  have hs : 3959 * (2 * Real.pi) / calculateRouteDistance [((0 : ℝ), 0), (0, 90)] = 4 := by
    rw [hL, div_eq_iff (by positivity)]
    ring
  have hscaled : scaleToTargetDistance [((0 : ℝ), 0), (0, 90)] (3959 * (2 * Real.pi))
      = [(0, -135), (0, 225)] := by
    rw [scaleToTargetDistance, if_pos hcond]
    simp only [List.map_cons, List.map_nil, hclat, hclng, hs]
    norm_num
  rw [hscaled]
  have h2 : calculateRouteDistance [((0 : ℝ), -135), (0, 225)] = 0 := by
    show calculateDistance (0, -135) (0, 225) + calculateRouteDistance [((0 : ℝ), 225)] = _
    rw [calculateDistance_wraparound_zero]
    show (0 : ℝ) + 0 = _
    ring
  rw [h2, zero_sub, abs_neg, abs_of_pos (by positivity)]
  intro h
  have hπ := Real.pi_pos
  linarith

/-! ## OverlayTransformEngine

Embedded from src/src/ResizableImageOverlay.jsx: the corner-marker drag and
dragend handlers (lines 106-171), the edge-marker handlers (lines 212-278)
and the center-marker handlers (lines 298-332).  Each handler snapshots the
box at dragstart and computes a candidate from the snapshot plus the pointer;
a gesture's dragend commit is modelled as one operation on the committed
box. -/

/-- An overlay bounding box `[[south, west], [north, east]]` in the real
coordinates the drag math runs in. -/
structure GeoBox where
  south : ℝ
  west : ℝ
  north : ℝ
  east : ℝ

/-- The non-degeneracy invariant: `south < north` and `west < east`. -/
def validBox (b : GeoBox) : Prop := b.south < b.north ∧ b.west < b.east

/-- The corner handler's scale factor: pointer distance from the snapshot
center divided by the snapshot's half-diagonal, or `1` when the half-diagonal
is not positive. -/
noncomputable def cornerScale (b : GeoBox) (pos : ℝ × ℝ) : ℝ :=
  if 0 < Real.sqrt (((b.north - b.south) / 2) ^ 2 + ((b.east - b.west) / 2) ^ 2) then
    Real.sqrt ((pos.1 - (b.south + b.north) / 2) * (pos.1 - (b.south + b.north) / 2) +
        (pos.2 - (b.west + b.east) / 2) * (pos.2 - (b.west + b.east) / 2)) /
      Real.sqrt (((b.north - b.south) / 2) ^ 2 + ((b.east - b.west) / 2) ^ 2)
  else 1

/-- `newHeight = Math.max(startHeight * scaleFactor, 0.0001)`. -/
noncomputable def cornerNewHeight (b : GeoBox) (pos : ℝ × ℝ) : ℝ :=
  max ((b.north - b.south) * cornerScale b pos) 0.0001

/-- The candidate box a corner drag produces: centered on the snapshot's
center with height `newHeight` and width `newHeight * aspectRatio`. -/
noncomputable def cornerCandidate (b : GeoBox) (r : ℝ) (pos : ℝ × ℝ) : GeoBox :=
  ⟨(b.south + b.north) / 2 - cornerNewHeight b pos / 2,
   (b.west + b.east) / 2 - cornerNewHeight b pos * r / 2,
   (b.south + b.north) / 2 + cornerNewHeight b pos / 2,
   (b.west + b.east) / 2 + cornerNewHeight b pos * r / 2⟩

/-- The corner dragend commit: no-op without a pinned aspect ratio (JS falsy
check, `r = 0`), and committed only under the guard
`newHeight > 0.0001 && newWidth > 0.0001`. -/
noncomputable def cornerCommit (b : GeoBox) (r : ℝ) (pos : ℝ × ℝ) : GeoBox :=
  if r = 0 then b
  else if 0.0001 < cornerNewHeight b pos ∧ 0.0001 < cornerNewHeight b pos * r then
    cornerCandidate b r pos
  else b

/-- Which edge marker is being dragged. -/
inductive EdgeSide where
  | west
  | east
  | south
  | north
  deriving DecidableEq, Repr

/-- The candidate box an edge drag produces: exactly one side moved to the
pointer's corresponding coordinate. -/
def edgeCandidate (b : GeoBox) (side : EdgeSide) (pos : ℝ × ℝ) : GeoBox :=
  match side with
  | .west => ⟨b.south, pos.2, b.north, b.east⟩
  | .east => ⟨b.south, b.west, b.north, pos.2⟩
  | .south => ⟨pos.1, b.west, b.north, b.east⟩
  | .north => ⟨b.south, b.west, pos.1, b.east⟩

/-- The edge dragend commit, guarded by
`newBounds[0][0] < newBounds[1][0] && newBounds[0][1] < newBounds[1][1]`. -/
noncomputable def edgeCommit (b : GeoBox) (side : EdgeSide) (pos : ℝ × ℝ) : GeoBox :=
  if (edgeCandidate b side pos).south < (edgeCandidate b side pos).north ∧
      (edgeCandidate b side pos).west < (edgeCandidate b side pos).east then
    edgeCandidate b side pos
  else b

/-- The center dragend commit: rigid translation of the snapshot box so its
center coincides with the pointer (no guard in the source). -/
noncomputable def centerCommit (b : GeoBox) (pos : ℝ × ℝ) : GeoBox :=
  ⟨pos.1 - (b.north - b.south) / 2, pos.2 - (b.east - b.west) / 2,
   pos.1 + (b.north - b.south) / 2, pos.2 + (b.east - b.west) / 2⟩

/-- One committed overlay-manipulation gesture. -/
inductive OverlayOp where
  | corner (r : ℝ) (pos : ℝ × ℝ)
  | edge (side : EdgeSide) (pos : ℝ × ℝ)
  | center (pos : ℝ × ℝ)

/-- Dispatch one committed gesture. -/
noncomputable def applyOp (b : GeoBox) : OverlayOp → GeoBox
  | .corner r pos => cornerCommit b r pos
  | .edge side pos => edgeCommit b side pos
  | .center pos => centerCommit b pos

theorem cornerNewHeight_pos (b : GeoBox) (pos : ℝ × ℝ) : 0 < cornerNewHeight b pos :=
  lt_of_lt_of_le (by norm_num) (le_max_right _ _)

theorem applyOp_valid (b : GeoBox) (op : OverlayOp) (hb : validBox b) :
    validBox (applyOp b op) := by
  cases op with
  | corner r pos =>
      show validBox (cornerCommit b r pos)
      rw [cornerCommit]
      split
      · exact hb
      · split
        · next h =>
            refine ⟨?_, ?_⟩ <;> simp only [cornerCandidate] <;> linarith [h.1, h.2]
        · exact hb
  | edge side pos =>
      show validBox (edgeCommit b side pos)
      rw [edgeCommit]
      split
      · next h => exact h
      · exact hb
  | center pos =>
      refine ⟨?_, ?_⟩ <;> simp only [applyOp, centerCommit] <;>
        [linarith [hb.1]; linarith [hb.2]]

/-- C4.  Starting from a non-degenerate box, no sequence of committed overlay
gestures (corner drag, edge drag, center drag) produces a box with
`south ≥ north` or `west ≥ east`: every guarded commit either produces a
valid box or falls back to the unchanged previous box, and the unguarded
center translation preserves the spans. -/
theorem c4_no_sequence_degenerates_box (b : GeoBox) (ops : List OverlayOp)
    (hb : validBox b) : validBox (ops.foldl applyOp b) := by
  induction ops generalizing b with
  | nil => exact hb
  | cons op rest ih => exact ih (applyOp b op) (applyOp_valid b op hb)

/-- C4 witness: a concrete valid box, dragged by its center then by an edge,
stays valid. -/
theorem c4_witness :
    validBox ⟨0, 0, 1, 1⟩ ∧
    validBox ([OverlayOp.center (5, 5), OverlayOp.edge EdgeSide.east (0, 9)].foldl
      applyOp ⟨0, 0, 1, 1⟩) := by
  have hb : validBox ⟨0, 0, 1, 1⟩ := by constructor <;> norm_num
  exact ⟨hb, c4_no_sequence_degenerates_box ⟨0, 0, 1, 1⟩
    [OverlayOp.center (5, 5), OverlayOp.edge EdgeSide.east (0, 9)] hb⟩

/-- C3.  With a pinned aspect ratio `r > 0`, every candidate box a corner
drag produces has `width / height = r` exactly (`newWidth = newHeight · r`
and `newHeight ≥ 0.0001 > 0`), and the ratio `width / height = r` is
preserved by every sequence of corner-drag commits. -/
theorem c3_corner_drag_preserves_aspect_ratio (r : ℝ) (hr : 0 < r) :
    (∀ (b : GeoBox) (pos : ℝ × ℝ),
        ((cornerCandidate b r pos).east - (cornerCandidate b r pos).west) /
          ((cornerCandidate b r pos).north - (cornerCandidate b r pos).south) = r) ∧
    (∀ (b : GeoBox) (drags : List (ℝ × ℝ)),
        (b.east - b.west) / (b.north - b.south) = r →
        (((drags.foldl (fun x pos => cornerCommit x r pos) b).east -
            (drags.foldl (fun x pos => cornerCommit x r pos) b).west) /
          ((drags.foldl (fun x pos => cornerCommit x r pos) b).north -
            (drags.foldl (fun x pos => cornerCommit x r pos) b).south)) = r) := by
  have hcand : ∀ (b : GeoBox) (pos : ℝ × ℝ),
      ((cornerCandidate b r pos).east - (cornerCandidate b r pos).west) /
        ((cornerCandidate b r pos).north - (cornerCandidate b r pos).south) = r := by
    intro b pos
    have hnh := cornerNewHeight_pos b pos
    simp only [cornerCandidate]
    have e1 : (b.west + b.east) / 2 + cornerNewHeight b pos * r / 2 -
        ((b.west + b.east) / 2 - cornerNewHeight b pos * r / 2) =
        cornerNewHeight b pos * r := by ring
    have e2 : (b.south + b.north) / 2 + cornerNewHeight b pos / 2 -
        ((b.south + b.north) / 2 - cornerNewHeight b pos / 2) =
        cornerNewHeight b pos := by ring
    rw [e1, e2, mul_div_cancel_left₀ _ (ne_of_gt hnh)]
  refine ⟨hcand, fun b drags => ?_⟩
  induction drags generalizing b with
  | nil => exact fun h => h
  | cons pos rest ih =>
      intro h
      refine ih (cornerCommit b r pos) ?_
      rw [cornerCommit, if_neg (ne_of_gt hr)]
      split
      · exact hcand b pos
      · exact h

/-- C3 witness: ratio 2, a concrete box of ratio 2, and the empty drag
sequence. -/
theorem c3_witness :
    (0 : ℝ) < 2 ∧
    ((⟨0, 0, 1, 2⟩ : GeoBox).east - (⟨0, 0, 1, 2⟩ : GeoBox).west) /
      ((⟨0, 0, 1, 2⟩ : GeoBox).north - (⟨0, 0, 1, 2⟩ : GeoBox).south) = 2 ∧
    ((([] : List (ℝ × ℝ)).foldl (fun x pos => cornerCommit x 2 pos)
          (⟨0, 0, 1, 2⟩ : GeoBox)).east -
        (([] : List (ℝ × ℝ)).foldl (fun x pos => cornerCommit x 2 pos)
          (⟨0, 0, 1, 2⟩ : GeoBox)).west) /
      ((([] : List (ℝ × ℝ)).foldl (fun x pos => cornerCommit x 2 pos)
          (⟨0, 0, 1, 2⟩ : GeoBox)).north -
        (([] : List (ℝ × ℝ)).foldl (fun x pos => cornerCommit x 2 pos)
          (⟨0, 0, 1, 2⟩ : GeoBox)).south) = 2 := by
  have hratio : ((⟨0, 0, 1, 2⟩ : GeoBox).east - (⟨0, 0, 1, 2⟩ : GeoBox).west) /
      ((⟨0, 0, 1, 2⟩ : GeoBox).north - (⟨0, 0, 1, 2⟩ : GeoBox).south) = 2 := by
    norm_num
  exact ⟨by norm_num, hratio,
    (c3_corner_drag_preserves_aspect_ratio 2 (by norm_num)).2 ⟨0, 0, 1, 2⟩ [] hratio⟩

/-! ## RoadSnapper

Embedded from `getOSRMRoute` (src/unnamed/part_007, lines 226-252) and
`snapToRoadsOSRM` (lines 277-317).  The routing collaborator is modelled as
an oracle `ℕ → Option (List (ℚ × ℚ))`: `some coords` is a successful
HTTP+`code === 'Ok'` response with the decoded polyline (possibly empty),
`none` is any failure (`getOSRMRoute` catches those internally and returns
the straight two-point fallback), indexed by the pair number the loop is
requesting. -/

/-- `getOSRMRoute(start, end)`: the decoded polyline on success, the straight
line `[start, end]` on any failure.  The surrounding `try/catch` in
`snapToRoadsOSRM` can never fire in this model because this function is
total, matching the source where `getOSRMRoute` catches its own errors. -/
def getOSRMRoute (resp : Option (List (ℚ × ℚ))) (a b : ℚ × ℚ) : List (ℚ × ℚ) :=
  match resp with
  | some coords => coords
  | none => [a, b]

/-- The decimation loop `for (let i = 0; i < n; i += step)`: every `step`-th
element starting at index 0. -/
def takeEvery (step : ℕ) : List (ℚ × ℚ) → List (ℚ × ℚ)
  | [] => []
  | p :: rest => p :: takeEvery step (rest.drop (step - 1))
termination_by l => l.length
decreasing_by
  simp only [List.length_drop, List.length_cons]
  omega

/-- The waypoint-budget decimation inside `snapToRoadsOSRM` (lines 280-292):
for more than `MAX_WAYPOINTS = 40` points, stride by `Math.ceil(n / 40)` and
force-append the final point when the stride skipped it.  The source's test
`waypoints[waypoints.length-1] !== mapPoints[mapPoints.length-1]` is a
JavaScript reference comparison between elements of the same array, true
exactly when the last selected index is not `n − 1`, i.e. when
`(n − 1) % step ≠ 0`. -/
def decimate (mapPoints : List (ℚ × ℚ)) : List (ℚ × ℚ) :=
  if 40 < mapPoints.length then
    if (mapPoints.length - 1) % ((mapPoints.length + 39) / 40) = 0 then
      takeEvery ((mapPoints.length + 39) / 40) mapPoints
    else
      takeEvery ((mapPoints.length + 39) / 40) mapPoints ++ [mapPoints.getLastD (0, 0)]
  else mapPoints

/-- The consecutive waypoint pairs `(waypoints[i], waypoints[i+1])` the
stitching loop iterates over. -/
def pairsOf (ws : List (ℚ × ℚ)) : List ((ℚ × ℚ) × (ℚ × ℚ)) := ws.zip ws.tail

/-- The stitching loop of `snapToRoadsOSRM` (lines 294-314), recursing over
the waypoint pairs with the loop counter `i`: a non-empty returned segment is
spliced whole for the first pair and headless for later pairs; an empty
segment falls back to the raw waypoints (first pair: both; later: just the
second). -/
def stitchPairs (oracle : ℕ → Option (List (ℚ × ℚ))) :
    List ((ℚ × ℚ) × (ℚ × ℚ)) → ℕ → List (ℚ × ℚ)
  | [], _ => []
  | (a, b) :: rest, i =>
      (if getOSRMRoute (oracle i) a b ≠ [] then
        (if i = 0 then getOSRMRoute (oracle i) a b else (getOSRMRoute (oracle i) a b).tail)
      else (if i = 0 then [a, b] else [b])) ++ stitchPairs oracle rest (i + 1)

/-- `snapToRoadsOSRM(mapPoints)`: pass through short inputs, decimate, then
stitch the per-pair routed segments. -/
def snapToRoadsOSRM (oracle : ℕ → Option (List (ℚ × ℚ)))
    (mapPoints : List (ℚ × ℚ)) : List (ℚ × ℚ) :=
  if mapPoints.length < 2 then mapPoints
  else stitchPairs oracle (pairsOf (decimate mapPoints)) 0

theorem takeEvery_sublist (s : ℕ) : ∀ l : List (ℚ × ℚ), List.Sublist (takeEvery s l) l := by
  have H : ∀ (n : ℕ) (l : List (ℚ × ℚ)), l.length ≤ n →
      List.Sublist (takeEvery s l) l := by
    intro n
    induction n with
    | zero =>
        intro l hl
        rw [List.length_eq_zero.mp (Nat.le_zero.mp hl)]
        rw [takeEvery]
    | succ n ih =>
        intro l hl
        cases l with
        | nil => rw [takeEvery]
        | cons p rest =>
            rw [takeEvery]
            refine List.Sublist.cons₂ _ ?_
            refine (ih _ ?_).trans (List.drop_sublist _ _)
            simp only [List.length_drop, List.length_cons] at hl ⊢
            omega
  exact fun l => H l.length l le_rfl

theorem takeEvery_length_le (s : ℕ) (hs : 0 < s) :
    ∀ l : List (ℚ × ℚ), (takeEvery s l).length ≤ (l.length + s - 1) / s := by
  have H : ∀ (n : ℕ) (l : List (ℚ × ℚ)), l.length ≤ n →
      (takeEvery s l).length ≤ (l.length + s - 1) / s := by
    intro n
    induction n with
    | zero =>
        intro l hl
        rw [List.length_eq_zero.mp (Nat.le_zero.mp hl), takeEvery]
        simp
    | succ n ih =>
        intro l hl
        cases l with
        | nil => rw [takeEvery]; simp
        | cons p rest =>
            rw [takeEvery]
            have hrec := ih (rest.drop (s - 1)) (by
              simp only [List.length_drop, List.length_cons] at hl ⊢
              omega)
            have hgoal : (takeEvery s (rest.drop (s - 1))).length + 1 ≤
                rest.length / s + 1 := by
              by_cases hcase : s - 1 ≤ rest.length
              · have e1 : rest.length - (s - 1) + s - 1 = rest.length := by omega
                rw [List.length_drop, e1] at hrec
                omega
              · have e1 : rest.length - (s - 1) = 0 := by omega
                rw [List.length_drop, e1] at hrec
                rw [Nat.div_eq_of_lt (by omega : 0 + s - 1 < s)] at hrec
                rw [Nat.le_zero.mp hrec]
                exact Nat.succ_le_succ (Nat.zero_le _)
            have hdiv : (p :: rest).length + s - 1 = rest.length + s := by
              simp only [List.length_cons]
              omega
            rw [hdiv, Nat.add_div_right _ hs]
            simpa using hgoal
  exact fun l => H l.length l le_rfl

theorem takeEvery_head (s : ℕ) (p : ℚ × ℚ) (rest : List (ℚ × ℚ)) :
    (takeEvery s (p :: rest)).head? = some p := by
  rw [takeEvery]
  rfl

theorem takeEvery_ne_nil (s : ℕ) (p : ℚ × ℚ) (rest : List (ℚ × ℚ)) :
    takeEvery s (p :: rest) ≠ [] := by
  rw [takeEvery]
  exact List.cons_ne_nil _ _

theorem getLast?_drop_of_lt (k : ℕ) (l : List (ℚ × ℚ)) (h : k < l.length) :
    (l.drop k).getLast? = l.getLast? := by
  rw [List.getLast?_eq_getElem?, List.getLast?_eq_getElem?, List.getElem?_drop,
    List.length_drop]
  congr 1
  omega

theorem getLast?_cons_of_ne (a : ℚ × ℚ) (l : List (ℚ × ℚ)) (h : l ≠ []) :
    (a :: l).getLast? = l.getLast? := by
  cases l with
  | nil => exact absurd rfl h
  | cons b t => exact List.getLast?_cons_cons

theorem takeEvery_getLast (s : ℕ) (hs : 0 < s) :
    ∀ l : List (ℚ × ℚ), l ≠ [] → (l.length - 1) % s = 0 →
      (takeEvery s l).getLast? = l.getLast? := by
  have H : ∀ (n : ℕ) (l : List (ℚ × ℚ)), l.length ≤ n → l ≠ [] →
      (l.length - 1) % s = 0 → (takeEvery s l).getLast? = l.getLast? := by
    intro n
    induction n with
    | zero =>
        intro l hl hne _
        exact absurd (List.length_eq_zero.mp (Nat.le_zero.mp hl)) hne
    | succ n ih =>
        intro l hl hne hmod
        cases l with
        | nil => exact absurd rfl hne
        | cons p rest =>
            rw [takeEvery]
            by_cases hrest : rest.drop (s - 1) = []
            · rw [hrest, takeEvery]
              have hlen : rest.length ≤ s - 1 := by
                have := List.drop_eq_nil_iff.mp hrest
                omega
              simp only [List.length_cons, Nat.add_sub_cancel] at hmod
              have h0 : rest.length = 0 := by
                have hlt : rest.length < s := by omega
                rw [Nat.mod_eq_of_lt hlt] at hmod
                exact hmod
              rw [List.length_eq_zero.mp h0]
            · have hlen : s - 1 < rest.length := by
                by_contra hcon
                exact hrest (List.drop_eq_nil_iff.mpr (by omega))
              have hrec := ih (rest.drop (s - 1)) (by
                  simp only [List.length_drop, List.length_cons] at hl ⊢
                  omega) hrest (by
                  simp only [List.length_drop, List.length_cons, Nat.add_sub_cancel] at hmod ⊢
                  have hd1 : s ∣ rest.length := Nat.dvd_iff_mod_eq_zero.mpr hmod
                  have hd2 : s ∣ rest.length - (s - 1) - 1 := by
                    have e : rest.length - (s - 1) - 1 = rest.length - s := by omega
                    rw [e]
                    exact Nat.dvd_sub' hd1 dvd_rfl
                  exact Nat.dvd_iff_mod_eq_zero.mp hd2)
              have hne2 : takeEvery s (rest.drop (s - 1)) ≠ [] := by
                intro hcon
                cases hdrop : rest.drop (s - 1) with
                | nil => exact hrest hdrop
                | cons q t =>
                    rw [hdrop, takeEvery] at hcon
                    exact List.cons_ne_nil _ _ hcon
              rw [getLast?_cons_of_ne _ _ hne2, hrec,
                getLast?_drop_of_lt (s - 1) rest hlen,
                getLast?_cons_of_ne _ _ (by
                  intro hcon
                  rw [hcon] at hlen
                  simp at hlen)]
  exact fun l => H l.length l le_rfl

theorem takeEvery_dropLast (s : ℕ) (hs : 0 < s) :
    ∀ l : List (ℚ × ℚ), (l.length - 1) % s ≠ 0 →
      takeEvery s l = takeEvery s l.dropLast := by
  have H : ∀ (n : ℕ) (l : List (ℚ × ℚ)), l.length ≤ n → (l.length - 1) % s ≠ 0 →
      takeEvery s l = takeEvery s l.dropLast := by
    intro n
    induction n with
    | zero =>
        intro l hl hmod
        rw [List.length_eq_zero.mp (Nat.le_zero.mp hl)] at hmod
        simp at hmod
    | succ n ih =>
        intro l hl hmod
        have hs1 : 2 ≤ s := by
          rcases s with _ | _ | s
          · exact absurd rfl (Nat.pos_iff_ne_zero.mp hs)
          · rw [Nat.mod_one] at hmod
            exact absurd rfl hmod
          · omega
        cases l with
        | nil => simp at hmod
        | cons p rest =>
            simp only [List.length_cons, Nat.add_sub_cancel] at hmod
            have hrestne : rest ≠ [] := by
              intro hcon
              rw [hcon] at hmod
              simp at hmod
            rw [List.dropLast_cons_of_ne_nil hrestne, takeEvery, takeEvery]
            congr 1
            have hdt : (rest.dropLast).drop (s - 1) = (rest.drop (s - 1)).dropLast := by
              rw [List.dropLast_eq_take, List.drop_take, List.dropLast_eq_take,
                List.length_drop]
              congr 1
              omega
            rw [hdt]
            by_cases hcase : rest.drop (s - 1) = []
            · rw [hcase]
              rfl
            · have hlen : s - 1 < rest.length := by
                by_contra hcon
                exact hcase (List.drop_eq_nil_iff.mpr (by omega))
              refine ih (rest.drop (s - 1)) (by
                  simp only [List.length_drop, List.length_cons] at hl ⊢
                  omega) ?_
              simp only [List.length_drop]
              intro hcon
              apply hmod
              have hd2 : s ∣ rest.length - (s - 1) - 1 := Nat.dvd_iff_mod_eq_zero.mpr hcon
              have e : rest.length - (s - 1) - 1 = rest.length - s := by omega
              rw [e] at hd2
              have hd1 : s ∣ rest.length := by
                have hadd := Nat.dvd_add hd2 (dvd_refl s)
                rwa [Nat.sub_add_cancel (by omega)] at hadd
              exact Nat.dvd_iff_mod_eq_zero.mp hd1
  exact fun l => H l.length l le_rfl

/-- C9.  Inputs of at most 40 points pass through the decimation unchanged;
for longer inputs the waypoint list has at most 41 entries (at most 40 from
the stride plus the force-appended final point), is an order-preserving
subsequence of the input, and keeps the input's first and last points. -/
theorem c9_decimate_waypoint_budget (pts : List (ℚ × ℚ)) :
    (pts.length ≤ 40 → decimate pts = pts) ∧
    (40 < pts.length →
      (decimate pts).length ≤ 41 ∧
      List.Sublist (decimate pts) pts ∧
      (decimate pts).head? = pts.head? ∧
      (decimate pts).getLast? = pts.getLast?) := by
  constructor
  · intro hle
    rw [decimate, if_neg (by omega)]
  · intro h40
    have hne : pts ≠ [] := by
      intro hcon
      rw [hcon] at h40
      simp at h40
    have hs : 0 < (pts.length + 39) / 40 := by omega
    have hn40 : pts.length ≤ 40 * ((pts.length + 39) / 40) := by omega
    have hlen_te : (takeEvery ((pts.length + 39) / 40) pts).length ≤ 40 := by
      refine le_trans (takeEvery_length_le _ hs pts) ?_
      have hlt : (pts.length + (pts.length + 39) / 40 - 1) / ((pts.length + 39) / 40) < 41 :=
        (Nat.div_lt_iff_lt_mul hs).mpr (by omega)
      omega
    have hheadte : (takeEvery ((pts.length + 39) / 40) pts).head? = pts.head? := by
      cases pts with
      | nil => exact absurd rfl hne
      | cons p rest =>
          rw [takeEvery_head]
          rfl
    have hlastD : pts.getLastD (0, 0) = pts.getLast hne := by
      rw [List.getLastD_eq_getLast?, List.getLast?_eq_getLast pts hne]
      rfl
    rw [decimate, if_pos h40]
    by_cases hmod : (pts.length - 1) % ((pts.length + 39) / 40) = 0
    · rw [if_pos hmod]
      exact ⟨by omega, takeEvery_sublist _ pts, hheadte,
        takeEvery_getLast _ hs pts hne hmod⟩
    · rw [if_neg hmod]
      refine ⟨?_, ?_, ?_, ?_⟩
      · rw [List.length_append]
        simp only [List.length_cons, List.length_nil]
        omega
      · have h1 : List.Sublist (takeEvery ((pts.length + 39) / 40) pts.dropLast)
            pts.dropLast := takeEvery_sublist _ _
        have h2 := List.Sublist.append h1
          (List.Sublist.refl [pts.getLast hne])
        rw [List.dropLast_append_getLast hne] at h2
        rw [takeEvery_dropLast _ hs pts hmod, hlastD]
        exact h2
      · cases pts with
        | nil => exact absurd rfl hne
        | cons p rest =>
            rw [takeEvery]
            rfl
      · rw [List.getLast?_concat, hlastD, List.getLast?_eq_getLast pts hne]

theorem decimate_of_le (pts : List (ℚ × ℚ)) (h : pts.length ≤ 40) :
    decimate pts = pts := by
  rw [decimate, if_neg (by omega)]

/-- Modelled from the spec: the splicing rule of §4.5 — "for the first pair,
append the entire returned path; for every subsequent pair, drop the returned
path's first point before appending" — over an abstract per-pair segment
family `C`.  Used as the comparison target for the stitching claims. -/
def stitchWith (C : ℕ → (ℚ × ℚ) → (ℚ × ℚ) → List (ℚ × ℚ)) :
    List ((ℚ × ℚ) × (ℚ × ℚ)) → ℕ → List (ℚ × ℚ)
  | [], _ => []
  | (a, b) :: rest, i =>
      (if i = 0 then C i a b else (C i a b).tail) ++ stitchWith C rest (i + 1)

theorem stitchPairs_eq_stitchWith (oracle : ℕ → Option (List (ℚ × ℚ)))
    (C : ℕ → (ℚ × ℚ) → (ℚ × ℚ) → List (ℚ × ℚ)) :
    ∀ (prs : List ((ℚ × ℚ) × (ℚ × ℚ))) (i : ℕ),
    (∀ j a b, prs[j]? = some (a, b) →
        (getOSRMRoute (oracle (i + j)) a b ≠ [] ∧
          getOSRMRoute (oracle (i + j)) a b = C (i + j) a b) ∨
        (getOSRMRoute (oracle (i + j)) a b = [] ∧ C (i + j) a b = [a, b])) →
    stitchPairs oracle prs i = stitchWith C prs i := by
  intro prs
  induction prs with
  | nil => intro i _; rfl
  | cons pr rest ih =>
      intro i h
      obtain ⟨a, b⟩ := pr
      rw [stitchPairs, stitchWith]
      have h0 := h 0 a b (by simp)
      rw [Nat.add_zero] at h0
      congr 1
      · rcases h0 with ⟨hne, heq⟩ | ⟨hnil, heq⟩
        · rw [if_pos hne, heq]
        · rw [if_neg (fun hcon => hcon hnil), heq]
          by_cases hi : i = 0
          · rw [if_pos hi, if_pos hi]
          · rw [if_neg hi, if_neg hi]
            rfl
      · refine ih (i + 1) (fun j a' b' hj => ?_)
        have hshift := h (j + 1) a' b' (by simpa using hj)
        rwa [show i + (j + 1) = i + 1 + j by omega] at hshift

theorem stitchWith_getLast (C : ℕ → (ℚ × ℚ) → (ℚ × ℚ) → List (ℚ × ℚ)) :
    ∀ (ws : List (ℚ × ℚ)) (p : ℚ × ℚ) (i : ℕ), 1 ≤ i →
    (∀ j a b, (pairsOf (p :: ws))[j]? = some (a, b) →
        (C (i + j) a b).head? = some a ∧ (C (i + j) a b).getLast? = some b) →
    (p :: stitchWith C (pairsOf (p :: ws)) i).getLast? = (p :: ws).getLast? := by
  intro ws
  induction ws with
  | nil => intro p i _ _; rfl
  | cons b rest ih =>
      intro p i hi h
      have hpairs : pairsOf (p :: b :: rest) = (p, b) :: pairsOf (b :: rest) := rfl
      rw [hpairs, stitchWith, if_neg (by omega)]
      have h0 := h 0 p b (by rw [hpairs]; simp)
      rw [Nat.add_zero] at h0
      obtain ⟨t, hCt⟩ : ∃ t, C i p b = p :: t := by
        cases hC : C i p b with
        | nil =>
            rw [hC] at h0
            simp at h0
        | cons q t =>
            rw [hC] at h0
            simp only [List.head?_cons, Option.some.injEq] at h0
            exact ⟨t, by rw [h0.1]⟩
      have hIH := ih b (i + 1) (by omega) (fun j a' b' hj => by
        have hshift := h (j + 1) a' b' (by rw [hpairs]; simpa using hj)
        rwa [show i + (j + 1) = i + 1 + j by omega] at hshift)
      have hlast : (C i p b).getLast? = some b := h0.2
      rw [hCt]
      show ((p :: t) ++ stitchWith C (pairsOf (b :: rest)) (i + 1)).getLast? = _
      by_cases hS : stitchWith C (pairsOf (b :: rest)) (i + 1) = []
      · rw [hS, List.append_nil, ← hCt, hlast]
        rw [hS] at hIH
        rw [List.getLast?_cons_cons, ← hIH]
        rfl
      · rw [getLast?_cons_of_ne _ _ hS] at hIH
        rw [List.getLast?_append, hIH, List.getLast?_cons_cons]
        have hz := List.getLast?_eq_getLast (b :: rest) (by simp)
        rw [hz]
        rfl

theorem stitchWith_chain (C : ℕ → (ℚ × ℚ) → (ℚ × ℚ) → List (ℚ × ℚ)) :
    ∀ (ws : List (ℚ × ℚ)) (p : ℚ × ℚ) (i : ℕ), 1 ≤ i →
    (∀ j a b, (pairsOf (p :: ws))[j]? = some (a, b) →
        (C (i + j) a b).head? = some a ∧ (C (i + j) a b).getLast? = some b ∧
        List.Chain' (· ≠ ·) (C (i + j) a b)) →
    List.Chain' (· ≠ ·) (p :: stitchWith C (pairsOf (p :: ws)) i) := by
  intro ws
  induction ws with
  | nil =>
      intro p i _ _
      exact List.chain'_singleton p
  | cons b rest ih =>
      intro p i hi h
      have hpairs : pairsOf (p :: b :: rest) = (p, b) :: pairsOf (b :: rest) := rfl
      rw [hpairs, stitchWith, if_neg (by omega)]
      have h0 := h 0 p b (by rw [hpairs]; simp)
      rw [Nat.add_zero] at h0
      obtain ⟨t, hCt⟩ : ∃ t, C i p b = p :: t := by
        cases hC : C i p b with
        | nil =>
            rw [hC] at h0
            simp at h0
        | cons q t =>
            rw [hC] at h0
            simp only [List.head?_cons, Option.some.injEq] at h0
            exact ⟨t, by rw [h0.1]⟩
      have hIH := ih b (i + 1) (by omega) (fun j a' b' hj => by
        have hshift := h (j + 1) a' b' (by rw [hpairs]; simpa using hj)
        rwa [show i + (j + 1) = i + 1 + j by omega] at hshift)
      rw [hCt]
      show List.Chain' (· ≠ ·) ((p :: t) ++ stitchWith C (pairsOf (b :: rest)) (i + 1))
      rw [List.chain'_append]
      obtain ⟨hhead, htail⟩ := List.chain'_cons'.mp hIH
      refine ⟨?_, htail, ?_⟩
      · rw [← hCt]
        exact h0.2.2
      · intro x hx y hy
        rw [← hCt, h0.2.1] at hx
        simp only [Option.mem_def, Option.some.injEq] at hx
        rw [← hx]
        exact hhead y hy

theorem stitchWith_top (C : ℕ → (ℚ × ℚ) → (ℚ × ℚ) → List (ℚ × ℚ))
    (a b : ℚ × ℚ) (t : List (ℚ × ℚ))
    (hok : ∀ j x y, (pairsOf (a :: b :: t))[j]? = some (x, y) →
        (C j x y).head? = some x ∧ (C j x y).getLast? = some y) :
    (stitchWith C (pairsOf (a :: b :: t)) 0).head? = some a ∧
    (stitchWith C (pairsOf (a :: b :: t)) 0).getLast? = (a :: b :: t).getLast? := by
  have hpairs : pairsOf (a :: b :: t) = (a, b) :: pairsOf (b :: t) := rfl
  rw [hpairs, stitchWith, if_pos rfl]
  have h0 := hok 0 a b (by rw [hpairs]; simp)
  obtain ⟨t0, hCt⟩ : ∃ t0, C 0 a b = a :: t0 := by
    cases hC : C 0 a b with
    | nil =>
        rw [hC] at h0
        simp at h0
    | cons q u =>
        rw [hC] at h0
        simp only [List.head?_cons, Option.some.injEq] at h0
        exact ⟨u, by rw [h0.1]⟩
  have hIH := stitchWith_getLast C t b 1 le_rfl (fun j x y hj => by
    have hshift := hok (j + 1) x y (by rw [hpairs]; simpa using hj)
    rwa [show j + 1 = 1 + j by omega] at hshift)
  constructor
  · rw [hCt]
    rfl
  · rw [hCt]
    show ((a :: t0) ++ stitchWith C (pairsOf (b :: t)) 1).getLast? = _
    by_cases hS : stitchWith C (pairsOf (b :: t)) 1 = []
    · rw [hS, List.append_nil, ← hCt, h0.2]
      rw [hS] at hIH
      rw [List.getLast?_cons_cons, ← hIH]
      rfl
    · rw [getLast?_cons_of_ne _ _ hS] at hIH
      rw [List.getLast?_append, hIH, List.getLast?_cons_cons]
      have hz := List.getLast?_eq_getLast (b :: t) (by simp)
      rw [hz]
      rfl

/-- C5 amended.  For ≥2 waypoints (within the 40-waypoint budget, so the
decimation is the identity) and mocked per-pair responses whose polylines
start and end at the requested pair's waypoints **and themselves contain no
two consecutive identical points**, the stitched route equals the spec's
splice (entire first polyline, then each later polyline minus its first
point), contains no two consecutive identical points anywhere — in
particular at segment boundaries — and keeps the first and last waypoints. -/
theorem c5_stitching_no_duplicate_junctions
    (oracle : ℕ → Option (List (ℚ × ℚ))) (P : ℕ → List (ℚ × ℚ))
    (ws : List (ℚ × ℚ)) (h2 : 2 ≤ ws.length) (h40 : ws.length ≤ 40)
    (horacle : ∀ j, oracle j = some (P j))
    (hok : ∀ j a b, (pairsOf ws)[j]? = some (a, b) →
        (P j).head? = some a ∧ (P j).getLast? = some b ∧
        List.Chain' (· ≠ ·) (P j)) :
    snapToRoadsOSRM oracle ws = stitchWith (fun j _ _ => P j) (pairsOf ws) 0 ∧
    List.Chain' (· ≠ ·) (snapToRoadsOSRM oracle ws) ∧
    (snapToRoadsOSRM oracle ws).head? = ws.head? ∧
    (snapToRoadsOSRM oracle ws).getLast? = ws.getLast? := by
  have hsnap : snapToRoadsOSRM oracle ws = stitchPairs oracle (pairsOf ws) 0 := by
    rw [snapToRoadsOSRM, if_neg (by omega), decimate_of_le ws h40]
  have hbridge : stitchPairs oracle (pairsOf ws) 0 =
      stitchWith (fun j _ _ => P j) (pairsOf ws) 0 := by
    refine stitchPairs_eq_stitchWith oracle _ (pairsOf ws) 0 (fun j a b hj => ?_)
    rw [Nat.zero_add]
    left
    have hP := hok j a b hj
    have hne : P j ≠ [] := by
      intro hcon
      rw [hcon] at hP
      simp at hP
    rw [horacle j]
    exact ⟨hne, rfl⟩
  obtain ⟨a, b, t, rfl⟩ : ∃ a b t, ws = a :: b :: t := by
    cases ws with
    | nil => simp at h2
    | cons a ws1 =>
        cases ws1 with
        | nil => simp at h2
        | cons b t => exact ⟨a, b, t, rfl⟩
  have htop := stitchWith_top (fun j _ _ => P j) a b t
    (fun j x y hj => ⟨(hok j x y hj).1, (hok j x y hj).2.1⟩)
  have hpairs : pairsOf (a :: b :: t) = (a, b) :: pairsOf (b :: t) := rfl
  have hchain : List.Chain' (· ≠ ·)
      (stitchWith (fun j _ _ => P j) (pairsOf (a :: b :: t)) 0) := by
    rw [hpairs, stitchWith, if_pos rfl]
    have h0 := hok 0 a b (by rw [hpairs]; simp)
    have hchainS := stitchWith_chain (fun j _ _ => P j) t b 1 le_rfl
      (fun j x y hj => by
        have hsh := hok (j + 1) x y (by rw [hpairs]; simpa using hj)
        rw [show 1 + j = j + 1 by omega]
        exact hsh)
    rw [List.chain'_append]
    obtain ⟨hhead, htail⟩ := List.chain'_cons'.mp hchainS
    refine ⟨h0.2.2, htail, fun x hx y hy => ?_⟩
    have hx2 : (P 0).getLast? = some x := hx
    rw [h0.2.1] at hx2
    simp only [Option.some.injEq] at hx2
    rw [← hx2]
    exact hhead y hy
  rw [hsnap, hbridge]
  exact ⟨rfl, hchain, htop.1, htop.2⟩

/-- The mocked routing responses of the C5 counterexample: the second pair's
polyline repeats its starting waypoint. -/
def dupOracle : ℕ → Option (List (ℚ × ℚ)) :=
  fun n =>
    if n = 0 then some [(0, 0), (1, 1)]
    else if n = 1 then some [(1, 1), (1, 1), (2, 2)] else none

/-- C5 counterexample.  Both mocked polylines start and end at their pair's
waypoints (the claim's only hypothesis on the mocks), yet the stitched route
`[(0,0), (1,1), (1,1), (2,2)]` carries two consecutive identical points at
the boundary between the two segments' contributions. -/
theorem c5_counterexample_duplicated_mock_head :
    ([((1 : ℚ), (1 : ℚ)), (1, 1), (2, 2)]).head? = some (1, 1) ∧
    ([((1 : ℚ), (1 : ℚ)), (1, 1), (2, 2)]).getLast? = some (2, 2) ∧
    snapToRoadsOSRM dupOracle [(0, 0), (1, 1), (2, 2)] =
      [(0, 0), (1, 1), (1, 1), (2, 2)] ∧
    ¬ List.Chain' (· ≠ ·) (snapToRoadsOSRM dupOracle [(0, 0), (1, 1), (2, 2)]) := by
  have heval : snapToRoadsOSRM dupOracle [(0, 0), (1, 1), (2, 2)] =
      [(0, 0), (1, 1), (1, 1), (2, 2)] := by
    rw [snapToRoadsOSRM, if_neg (by norm_num), decimate_of_le _ (by norm_num)]
    norm_num [pairsOf, stitchPairs, getOSRMRoute, dupOracle, List.cons_ne_nil]
  refine ⟨rfl, rfl, heval, ?_⟩
  rw [heval]
  simp [List.chain'_cons]

/-- C5 witness: a two-waypoint route with one successful mocked polyline
`(0,0) → (5,5) → (1,1)`. -/
theorem c5_witness :
    2 ≤ ([((0 : ℚ), (0 : ℚ)), (1, 1)] : List (ℚ × ℚ)).length ∧
    ([((0 : ℚ), (0 : ℚ)), (1, 1)] : List (ℚ × ℚ)).length ≤ 40 ∧
    (snapToRoadsOSRM (fun _ => some [((0 : ℚ), (0 : ℚ)), (5, 5), (1, 1)])
        [(0, 0), (1, 1)] =
      stitchWith (fun _ _ _ => [((0 : ℚ), (0 : ℚ)), (5, 5), (1, 1)])
        (pairsOf [(0, 0), (1, 1)]) 0 ∧
     List.Chain' (· ≠ ·)
       (snapToRoadsOSRM (fun _ => some [((0 : ℚ), (0 : ℚ)), (5, 5), (1, 1)])
         [(0, 0), (1, 1)]) ∧
     (snapToRoadsOSRM (fun _ => some [((0 : ℚ), (0 : ℚ)), (5, 5), (1, 1)])
         [(0, 0), (1, 1)]).head? = ([((0 : ℚ), (0 : ℚ)), (1, 1)]).head? ∧
     (snapToRoadsOSRM (fun _ => some [((0 : ℚ), (0 : ℚ)), (5, 5), (1, 1)])
         [(0, 0), (1, 1)]).getLast? = ([((0 : ℚ), (0 : ℚ)), (1, 1)]).getLast?) := by
  refine ⟨by norm_num, by norm_num, ?_⟩
  refine c5_stitching_no_duplicate_junctions
    (fun _ => some [((0 : ℚ), (0 : ℚ)), (5, 5), (1, 1)])
    (fun _ => [((0 : ℚ), (0 : ℚ)), (5, 5), (1, 1)])
    [(0, 0), (1, 1)] (by norm_num) (by norm_num) (fun _ => rfl) ?_
  intro j a b hj
  rcases j with _ | j
  · simp only [pairsOf, List.zip_cons_cons, List.tail_cons, List.zip_nil_right,
      List.getElem?_cons_zero, Option.some.injEq] at hj
    obtain ⟨ha, hb⟩ := Prod.mk.injEq .. ▸ hj
    refine ⟨?_, ?_, ?_⟩
    · rw [← ha]
      rfl
    · rw [← hb]
      rfl
    · norm_num [List.chain'_cons, Prod.ext_iff]
  · simp [pairsOf] at hj

/-- C6.  When the routing collaborator fails (or returns an empty polyline)
for pair `k` only, the stitched output equals the spec splice where pair `k`
contributes the straight two-point line of its raw waypoints (first pair:
both, later pairs: just the second after the head-drop) and every other pair
contributes its routed polyline; the route's first and last points are the
first and last waypoints, and the stitching is a total function (nothing is
raised). -/
theorem c6_failed_segment_straight_line_fallback
    (oracle : ℕ → Option (List (ℚ × ℚ))) (P : ℕ → List (ℚ × ℚ))
    (ws : List (ℚ × ℚ)) (k : ℕ)
    (h2 : 2 ≤ ws.length) (h40 : ws.length ≤ 40)
    (hfail : oracle k = none ∨ oracle k = some [])
    (hok : ∀ j a b, (pairsOf ws)[j]? = some (a, b) → j ≠ k →
        oracle j = some (P j) ∧ (P j).head? = some a ∧ (P j).getLast? = some b) :
    snapToRoadsOSRM oracle ws =
      stitchWith (fun j a b => if j = k then [a, b] else P j) (pairsOf ws) 0 ∧
    (snapToRoadsOSRM oracle ws).head? = ws.head? ∧
    (snapToRoadsOSRM oracle ws).getLast? = ws.getLast? := by
  have hsnap : snapToRoadsOSRM oracle ws = stitchPairs oracle (pairsOf ws) 0 := by
    rw [snapToRoadsOSRM, if_neg (by omega), decimate_of_le ws h40]
  have hbridge : stitchPairs oracle (pairsOf ws) 0 =
      stitchWith (fun j a b => if j = k then [a, b] else P j) (pairsOf ws) 0 := by
    refine stitchPairs_eq_stitchWith oracle _ (pairsOf ws) 0 (fun j a b hj => ?_)
    rw [Nat.zero_add]
    by_cases hjk : j = k
    · subst hjk
      rcases hfail with hf | hf
      · left
        rw [hf]
        exact ⟨by simp [getOSRMRoute], by simp [getOSRMRoute]⟩
      · right
        rw [hf]
        exact ⟨rfl, by simp⟩
    · left
      have hP := hok j a b hj hjk
      have hne : P j ≠ [] := by
        intro hcon
        rw [hcon] at hP
        simp at hP
      rw [hP.1]
      exact ⟨hne, by simp [getOSRMRoute, hjk]⟩
  obtain ⟨a, b, t, rfl⟩ : ∃ a b t, ws = a :: b :: t := by
    cases ws with
    | nil => simp at h2
    | cons a ws1 =>
        cases ws1 with
        | nil => simp at h2
        | cons b t => exact ⟨a, b, t, rfl⟩
  have htop := stitchWith_top (fun j a b => if j = k then [a, b] else P j) a b t
    (fun j x y hj => by
      by_cases hjk : j = k
      · subst hjk
        exact ⟨by simp, by simp [List.getLast?]⟩
      · have hP := hok j x y hj hjk
        simp only [if_neg hjk]
        exact ⟨hP.2.1, hP.2.2⟩)
  rw [hsnap, hbridge]
  exact ⟨rfl, htop.1, htop.2⟩

/-- The routing oracle of the C6 witness: pair 0 routes normally, pair 1
fails. -/
def failOracle : ℕ → Option (List (ℚ × ℚ)) :=
  fun n => if n = 0 then some [(0, 0), (9, 9), (1, 1)] else none

/-- The per-pair polylines of the C6 witness. -/
def failRoutes : ℕ → List (ℚ × ℚ) :=
  fun n => if n = 0 then [(0, 0), (9, 9), (1, 1)] else []

/-- C6 witness: three waypoints whose second segment fails; the theorem
applies with `k = 1`. -/
theorem c6_witness :
    2 ≤ ([((0 : ℚ), (0 : ℚ)), (1, 1), (2, 2)] : List (ℚ × ℚ)).length ∧
    (snapToRoadsOSRM failOracle [(0, 0), (1, 1), (2, 2)] =
      stitchWith (fun j a b => if j = 1 then [a, b] else failRoutes j)
        (pairsOf [(0, 0), (1, 1), (2, 2)]) 0 ∧
     (snapToRoadsOSRM failOracle [(0, 0), (1, 1), (2, 2)]).head? =
       ([((0 : ℚ), (0 : ℚ)), (1, 1), (2, 2)]).head? ∧
     (snapToRoadsOSRM failOracle [(0, 0), (1, 1), (2, 2)]).getLast? =
       ([((0 : ℚ), (0 : ℚ)), (1, 1), (2, 2)]).getLast?) := by
  refine ⟨by norm_num, ?_⟩
  refine c6_failed_segment_straight_line_fallback failOracle failRoutes
    [(0, 0), (1, 1), (2, 2)] 1 (by norm_num) (by norm_num)
    (Or.inl rfl) ?_
  intro j a b hj hjk
  rcases j with _ | j
  · simp only [pairsOf, List.zip_cons_cons, List.tail_cons, List.zip_nil_right,
      List.getElem?_cons_zero, Option.some.injEq] at hj
    obtain ⟨ha, hb⟩ := Prod.mk.injEq .. ▸ hj
    refine ⟨rfl, ?_, ?_⟩
    · rw [← ha]
      rfl
    · rw [← hb]
      rfl
  · rcases j with _ | j
    · exact absurd rfl hjk
    · simp [pairsOf] at hj

/-- An 82-point route used to witness the decimation bound. -/
def demoLongRoute : List (ℚ × ℚ) :=
  (List.range 82).map (fun (i : ℕ) => ((i : ℚ), (0 : ℚ)))

/-- C9 witness: the budget theorem applied to the concrete 82-point route. -/
theorem c9_witness :
    40 < demoLongRoute.length ∧
    ((decimate demoLongRoute).length ≤ 41 ∧
      List.Sublist (decimate demoLongRoute) demoLongRoute ∧
      (decimate demoLongRoute).head? = demoLongRoute.head? ∧
      (decimate demoLongRoute).getLast? = demoLongRoute.getLast?) := by
  have hlen : 40 < demoLongRoute.length := by
    rw [demoLongRoute, List.length_map, List.length_range]
    omega
  exact ⟨hlen, (c9_decimate_waypoint_budget demoLongRoute).2 hlen⟩

/-! ## RasterContourExtractor: the boundary walk

Embedded from `traceContour` (src/unnamed/part_007, lines 551-610).  The edge
magnitude grid is a function `ℕ → ℚ` indexed `y * width + x` (the source's
flat `Float32Array`), the `visited` set of `"x,y"` string keys is a list of
pixel pairs, and the collected points are normalized `(x / width, y / height)`
pairs.  The do-while loop is modelled with an explicit fuel argument of
`width*height + 5002`: every iteration either collects a new point (at most
5001 of those before the `< 5000` guard stops the loop) or moves to an
unvisited pixel (at most `width*height` of those), so the fuel can never run
out on the reachable states; the properties proved below hold for every fuel
value regardless. -/

/-- The 8-direction x offsets, clockwise from east. -/
def dxs : List ℤ := [1, 1, 0, -1, -1, -1, 0, 1]

/-- The 8-direction y offsets, clockwise from east (y grows downward). -/
def dys : List ℤ := [0, 1, 1, 1, 0, -1, -1, -1]

/-- The admissibility test of the loop body: the neighbor of `(x, y)` in
direction `dir` is inside the grid, above the threshold, and unvisited. -/
def tryDir (edges : ℕ → ℚ) (w h : ℕ) (threshold : ℚ)
    (visited : List (ℕ × ℕ)) (x y dir : ℕ) : Option (ℕ × ℕ) :=
  if 0 ≤ (x : ℤ) + dxs.getD dir 0 ∧ (x : ℤ) + dxs.getD dir 0 < (w : ℤ) ∧
      0 ≤ (y : ℤ) + dys.getD dir 0 ∧ (y : ℤ) + dys.getD dir 0 < (h : ℤ) then
    if threshold < edges (((y : ℤ) + dys.getD dir 0).toNat * w +
          ((x : ℤ) + dxs.getD dir 0).toNat) ∧
        (((x : ℤ) + dxs.getD dir 0).toNat, ((y : ℤ) + dys.getD dir 0).toNat) ∉ visited then
      some (((x : ℤ) + dxs.getD dir 0).toNat, ((y : ℤ) + dys.getD dir 0).toNat)
    else none
  else none

/-- One probe of the scan: an admissible neighbor packaged with the direction
that found it (the loop's `lastDir = dir` update). -/
def dirProbe (edges : ℕ → ℚ) (w h : ℕ) (threshold : ℚ)
    (visited : List (ℕ × ℕ)) (x y dir : ℕ) : Option (ℕ × ℕ × ℕ) :=
  match tryDir edges w h threshold visited x y dir with
  | some (nx, ny) => some (nx, ny, dir)
  | none => none

/-- The neighbor scan of the source: `for i = 0..7` probing direction
`(startDir + i) % 8` with `startDir = (lastDir + 6) % 8` (the source comment
says "start search from last direction - 2"). -/
def findNext (edges : ℕ → ℚ) (w h : ℕ) (threshold : ℚ)
    (visited : List (ℕ × ℕ)) (x y lastDir : ℕ) : Option (ℕ × ℕ × ℕ) :=
  (List.range 8).findSome? (fun i =>
    dirProbe edges w h threshold visited x y (((lastDir + 6) % 8 + i) % 8))

/-- The seed search: the first pixel in raster order whose edge magnitude
exceeds the threshold. -/
def findSeed (edges : ℕ → ℚ) (w h : ℕ) (threshold : ℚ) : Option (ℕ × ℕ) :=
  (List.range h).findSome? (fun y =>
    (List.range w).findSome? (fun x =>
      if threshold < edges (y * w + x) then some (x, y) else none))

/-- The loop body's `visited.add(key)`: the source's local `visited2` (the
set after the unvisited-check at the top of the do-while body). -/
def stepVisited (x y : ℕ) (visited : List (ℕ × ℕ)) : List (ℕ × ℕ) :=
  if (x, y) ∈ visited then visited else (x, y) :: visited

/-- The loop body's `contourPoints.push([x/width, y/height])`: the collected
list after the unvisited-check (the source's local `acc2`). -/
def stepAcc (w h x y : ℕ) (acc : List (ℚ × ℚ)) (visited : List (ℕ × ℕ)) :
    List (ℚ × ℚ) :=
  if (x, y) ∈ visited then acc
  else acc ++ [((x : ℚ) / (w : ℚ), (y : ℚ) / (h : ℚ))]

/-- The do-while body of `traceContour`: mark and collect the current pixel
if unvisited, scan for the next boundary pixel, and continue while the new
pixel is not the seed and fewer than `maxPoints = 5000` points are
collected. -/
def traceLoop (edges : ℕ → ℚ) (w h : ℕ) (threshold : ℚ) (sx sy : ℕ) :
    ℕ → ℕ → ℕ → ℕ → List (ℕ × ℕ) → List (ℚ × ℚ) → List (ℚ × ℚ)
  | 0, _, _, _, _, acc => acc
  | fuel + 1, x, y, lastDir, visited, acc =>
      match findNext edges w h threshold (stepVisited x y visited) x y lastDir with
      | none => stepAcc w h x y acc visited
      | some (nx, ny, dir) =>
          if (nx, ny) ≠ (sx, sy) ∧ (stepAcc w h x y acc visited).length < 5000 then
            traceLoop edges w h threshold sx sy fuel nx ny dir
              (stepVisited x y visited) (stepAcc w h x y acc visited)
          else stepAcc w h x y acc visited

/-- `traceContour(edges, width, height, threshold)` from src/unnamed/part_007
lines 551-610. -/
def traceContour (edges : ℕ → ℚ) (w h : ℕ) (threshold : ℚ) : List (ℚ × ℚ) :=
  match findSeed edges w h threshold with
  | none => []
  | some (sx, sy) => traceLoop edges w h threshold sx sy (w * h + 5002) sx sy 0 [] []

/-- Modelled from the spec (amended wording): the clockwise scan written as
an incremental walk that starts at the direction two steps counterclockwise
of the incoming one (`(lastDir + 6) % 8`) and steps clockwise through at
most eight directions. -/
def scanClockwise (edges : ℕ → ℚ) (w h : ℕ) (threshold : ℚ)
    (visited : List (ℕ × ℕ)) (x y : ℕ) : ℕ → ℕ → Option (ℕ × ℕ × ℕ)
  | _, 0 => none
  | d, k + 1 =>
      match dirProbe edges w h threshold visited x y (d % 8) with
      | some r => some r
      | none => scanClockwise edges w h threshold visited x y (d + 1) k

/-- Modelled from the spec (amended wording): the scan of the amended claim,
starting at `(lastDir + 6) % 8`. -/
def findNextAmended (edges : ℕ → ℚ) (w h : ℕ) (threshold : ℚ)
    (visited : List (ℕ × ℕ)) (x y lastDir : ℕ) : Option (ℕ × ℕ × ℕ) :=
  scanClockwise edges w h threshold visited x y ((lastDir + 6) % 8) 8

/-- Modelled from the spec (amended wording): the walk of the amended claim,
stopping when the walk returns to the seed, when the point cap is reached, or
when no admissible neighbor remains. -/
def traceLoopAmended (edges : ℕ → ℚ) (w h : ℕ) (threshold : ℚ) (sx sy : ℕ) :
    ℕ → ℕ → ℕ → ℕ → List (ℕ × ℕ) → List (ℚ × ℚ) → List (ℚ × ℚ)
  | 0, _, _, _, _, acc => acc
  | fuel + 1, x, y, lastDir, visited, acc =>
      match findNextAmended edges w h threshold (stepVisited x y visited) x y lastDir with
      | none => stepAcc w h x y acc visited
      | some (nx, ny, dir) =>
          if (nx, ny) ≠ (sx, sy) ∧ (stepAcc w h x y acc visited).length < 5000 then
            traceLoopAmended edges w h threshold sx sy fuel nx ny dir
              (stepVisited x y visited) (stepAcc w h x y acc visited)
          else stepAcc w h x y acc visited

/-- Modelled from the spec (amended wording): the whole amended-claim walk. -/
def traceContourAmended (edges : ℕ → ℚ) (w h : ℕ) (threshold : ℚ) : List (ℚ × ℚ) :=
  match findSeed edges w h threshold with
  | none => []
  | some (sx, sy) =>
      traceLoopAmended edges w h threshold sx sy (w * h + 5002) sx sy 0 [] []

/-- Modelled from the spec as frozen in the claim: a scan that, at every step
after the first, starts from the direction opposite the incoming one
(`(lastDir + 4) % 8`). -/
def findNextOpposite (edges : ℕ → ℚ) (w h : ℕ) (threshold : ℚ)
    (visited : List (ℕ × ℕ)) (x y lastDir : ℕ) : Option (ℕ × ℕ × ℕ) :=
  (List.range 8).findSome? (fun i =>
    dirProbe edges w h threshold visited x y (((lastDir + 4) % 8 + i) % 8))

/-- Modelled from the spec as frozen in the claim: the walk whose scans after
the first step start opposite the incoming direction; the first scan is the
source's. -/
def traceLoopOpposite (edges : ℕ → ℚ) (w h : ℕ) (threshold : ℚ) (sx sy : ℕ) :
    ℕ → Bool → ℕ → ℕ → ℕ → List (ℕ × ℕ) → List (ℚ × ℚ) → List (ℚ × ℚ)
  | 0, _, _, _, _, _, acc => acc
  | fuel + 1, first, x, y, lastDir, visited, acc =>
      match (if first then findNext edges w h threshold (stepVisited x y visited) x y lastDir
             else findNextOpposite edges w h threshold (stepVisited x y visited) x y lastDir) with
      | none => stepAcc w h x y acc visited
      | some (nx, ny, dir) =>
          if (nx, ny) ≠ (sx, sy) ∧ (stepAcc w h x y acc visited).length < 5000 then
            traceLoopOpposite edges w h threshold sx sy fuel false nx ny dir
              (stepVisited x y visited) (stepAcc w h x y acc visited)
          else stepAcc w h x y acc visited

/-- Modelled from the spec as frozen in the claim: the opposite-start walk. -/
def traceContourOpposite (edges : ℕ → ℚ) (w h : ℕ) (threshold : ℚ) : List (ℚ × ℚ) :=
  match findSeed edges w h threshold with
  | none => []
  | some (sx, sy) =>
      traceLoopOpposite edges w h threshold sx sy (w * h + 5002) true sx sy 0 [] []

theorem findSome?_range_scanClockwise (edges : ℕ → ℚ) (w h : ℕ) (thr : ℚ)
    (visited : List (ℕ × ℕ)) (x y : ℕ) :
    ∀ (k d : ℕ),
      (List.range k).findSome?
          (fun i => dirProbe edges w h thr visited x y ((d + i) % 8)) =
        scanClockwise edges w h thr visited x y d k := by
  intro k
  induction k with
  | zero => intro d; rfl
  | succ k ih =>
      intro d
      rw [List.range_succ_eq_map, List.findSome?_cons, List.findSome?_map, scanClockwise]
      have hfun : ((fun i => dirProbe edges w h thr visited x y ((d + i) % 8)) ∘ Nat.succ) =
          (fun i => dirProbe edges w h thr visited x y ((d + 1 + i) % 8)) := by
        funext i
        show dirProbe edges w h thr visited x y ((d + Nat.succ i) % 8) = _
        have harith : d + Nat.succ i = d + 1 + i := by omega
        rw [harith]
      rw [hfun, ih (d + 1)]
      simp only [Nat.add_zero]
      cases hprobe : dirProbe edges w h thr visited x y (d % 8) with
      | none => rfl
      | some r => rfl

theorem findNext_eq_findNextAmended (edges : ℕ → ℚ) (w h : ℕ) (thr : ℚ)
    (visited : List (ℕ × ℕ)) (x y lastDir : ℕ) :
    findNext edges w h thr visited x y lastDir =
      findNextAmended edges w h thr visited x y lastDir :=
  findSome?_range_scanClockwise edges w h thr visited x y 8 ((lastDir + 6) % 8)

set_option maxHeartbeats 1600000 in
theorem traceLoop_eq_amended (edges : ℕ → ℚ) (w h : ℕ) (thr : ℚ) (sx sy : ℕ) :
    ∀ (fuel x y lastDir : ℕ) (visited : List (ℕ × ℕ)) (acc : List (ℚ × ℚ)),
      traceLoop edges w h thr sx sy fuel x y lastDir visited acc =
        traceLoopAmended edges w h thr sx sy fuel x y lastDir visited acc := by
  intro fuel
  induction fuel with
  | zero => intro x y lastDir visited acc; rfl
  | succ fuel ih =>
      intro x y lastDir visited acc
      rw [traceLoop, traceLoopAmended, findNext_eq_findNextAmended]
      cases hnext : findNextAmended edges w h thr (stepVisited x y visited) x y lastDir with
      | none => rfl
      | some r =>
          obtain ⟨nx, ny, dir⟩ := r
          by_cases hcond : (nx, ny) ≠ (sx, sy) ∧
              (stepAcc w h x y acc visited).length < 5000
          · simp only [if_pos hcond, ih]
          · simp only [if_neg hcond]

/-- C8 amended.  The boundary walk equals the spec-worded walk whose scan at
every step (the first included) starts two steps counterclockwise of the
incoming direction — `(lastDir + 6) % 8`, the source comment's "last
direction − 2" — and proceeds clockwise, stopping at the seed, at the
5000-point cap, or at a dead end. -/
theorem c8_scan_starts_two_counterclockwise (edges : ℕ → ℚ) (w h : ℕ) (thr : ℚ) :
    traceContour edges w h thr = traceContourAmended edges w h thr := by
  rw [traceContour, traceContourAmended]
  cases hseed : findSeed edges w h thr with
  | none => rfl
  | some s =>
      obtain ⟨sx, sy⟩ := s
      exact traceLoop_eq_amended edges w h thr sx sy (w * h + 5002) sx sy 0 [] []

/-- The edge grid of the C8 counterexample: edge pixels at `(2,0)` and
`(2,1)` in a 3×3 grid (`threshold = 0`). -/
def c8Edges : ℕ → ℚ := fun i => if i = 2 ∨ i = 5 then 1 else 0

/-- C8 counterexample.  At the walk state "at `(1,1)`, arrived moving south
(`lastDir = 2`), having visited `(1,0)` and `(1,1)`", the source's scan
(starting at `(2+6) % 8 = 0`, east) picks the east neighbor `(2,1)`, whereas
a scan starting from the direction opposite the incoming one
(`(2+4) % 8 = 6`, north) picks the northeast neighbor `(2,0)`: the source's
scan does not start opposite the incoming direction. -/
theorem c8_counterexample_scan_start_not_opposite :
    findNext c8Edges 3 3 0 [(1, 0), (1, 1)] 1 1 2 = some (2, 1, 0) ∧
    findNextOpposite c8Edges 3 3 0 [(1, 0), (1, 1)] 1 1 2 = some (2, 0, 7) ∧
    findNext c8Edges 3 3 0 [(1, 0), (1, 1)] 1 1 2 ≠
      findNextOpposite c8Edges 3 3 0 [(1, 0), (1, 1)] 1 1 2 := by
  refine ⟨by decide, by decide, by decide⟩

theorem tryDir_some {edges : ℕ → ℚ} {w h : ℕ} {thr : ℚ} {visited : List (ℕ × ℕ)}
    {x y dir nx ny : ℕ}
    (hsome : tryDir edges w h thr visited x y dir = some (nx, ny)) :
    nx < w ∧ ny < h ∧ (nx, ny) ∉ visited := by
  rw [tryDir] at hsome
  split at hsome
  next h1 =>
    split at hsome
    next h2 =>
      simp only [Option.some.injEq, Prod.mk.injEq] at hsome
      obtain ⟨hnx, hny⟩ := hsome
      subst hnx
      subst hny
      exact ⟨by omega, by omega, h2.2⟩
    next => exact Option.noConfusion hsome
  next => exact Option.noConfusion hsome

theorem dirProbe_some {edges : ℕ → ℚ} {w h : ℕ} {thr : ℚ} {visited : List (ℕ × ℕ)}
    {x y dir nx ny dir2 : ℕ}
    (hsome : dirProbe edges w h thr visited x y dir = some (nx, ny, dir2)) :
    nx < w ∧ ny < h ∧ (nx, ny) ∉ visited := by
  cases htry : tryDir edges w h thr visited x y dir with
  | none =>
      rw [dirProbe, htry] at hsome
      exact Option.noConfusion hsome
  | some p =>
      obtain ⟨a, b⟩ := p
      rw [dirProbe, htry] at hsome
      simp only [Option.some.injEq, Prod.mk.injEq] at hsome
      obtain ⟨ha, hb, -⟩ := hsome
      subst ha
      subst hb
      exact tryDir_some htry

theorem findNext_some {edges : ℕ → ℚ} {w h : ℕ} {thr : ℚ} {visited : List (ℕ × ℕ)}
    {x y lastDir nx ny dir2 : ℕ}
    (hsome : findNext edges w h thr visited x y lastDir = some (nx, ny, dir2)) :
    nx < w ∧ ny < h ∧ (nx, ny) ∉ visited := by
  obtain ⟨i, -, hprobe⟩ := List.exists_of_findSome?_eq_some hsome
  exact dirProbe_some hprobe

theorem findSeed_some {edges : ℕ → ℚ} {w h : ℕ} {thr : ℚ} {sx sy : ℕ}
    (hsome : findSeed edges w h thr = some (sx, sy)) : sx < w ∧ sy < h := by
  obtain ⟨y0, hy0mem, hy0⟩ := List.exists_of_findSome?_eq_some hsome
  obtain ⟨x0, hx0mem, hx0⟩ := List.exists_of_findSome?_eq_some hy0
  split at hx0
  · simp only [Option.some.injEq, Prod.mk.injEq] at hx0
    obtain ⟨hx1, hy1⟩ := hx0
    subst hx1
    subst hy1
    exact ⟨List.mem_range.mp hx0mem, List.mem_range.mp hy0mem⟩
  · exact Option.noConfusion hx0

theorem div_nat_inj {w : ℕ} (hw : 0 < w) {a b : ℕ}
    (hab : (a : ℚ) / (w : ℚ) = (b : ℚ) / (w : ℚ)) : a = b := by
  have hww : (w : ℚ) ≠ 0 := Nat.cast_ne_zero.mpr (by omega)
  field_simp at hab
  exact_mod_cast hab

/-- The loop invariant tying collected points to visited in-bounds pixels. -/
def accRepr (w h : ℕ) (visited : List (ℕ × ℕ)) (acc : List (ℚ × ℚ)) : Prop :=
  ∀ q ∈ acc, ∃ a b, (a, b) ∈ visited ∧ a < w ∧ b < h ∧
    q = ((a : ℚ) / (w : ℚ), (b : ℚ) / (h : ℚ))

theorem accRepr_range {w h : ℕ} {visited : List (ℕ × ℕ)} {acc : List (ℚ × ℚ)}
    (hrepr : accRepr w h visited acc) :
    ∀ q ∈ acc, 0 ≤ q.1 ∧ q.1 < 1 ∧ 0 ≤ q.2 ∧ q.2 < 1 := by
  intro q hq
  obtain ⟨a, b, -, ha, hb, heq⟩ := hrepr q hq
  have hw : 0 < w := by omega
  have hh : 0 < h := by omega
  have hwq : (0 : ℚ) < (w : ℚ) := by exact_mod_cast hw
  have hhq : (0 : ℚ) < (h : ℚ) := by exact_mod_cast hh
  rw [heq]
  simp only
  refine ⟨by positivity, ?_, by positivity, ?_⟩
  · rw [div_lt_one hwq]
    exact_mod_cast ha
  · rw [div_lt_one hhq]
    exact_mod_cast hb

theorem stepAcc_length {w h x y : ℕ} {acc : List (ℚ × ℚ)} {visited : List (ℕ × ℕ)} :
    (stepAcc w h x y acc visited).length ≤ acc.length + 1 := by
  rw [stepAcc]
  split
  · omega
  · rw [List.length_append]
    simp

theorem stepAcc_not_mem {w h x y : ℕ} {acc : List (ℚ × ℚ)} {visited : List (ℕ × ℕ)}
    (_hx : x < w) (hy : y < h) (hrepr : accRepr w h visited acc)
    (hmem : (x, y) ∉ visited) :
    ((x : ℚ) / (w : ℚ), (y : ℚ) / (h : ℚ)) ∉ acc := by
  intro hptacc
  obtain ⟨a, b, hv, ha, hb, heq⟩ := hrepr _ hptacc
  simp only [Prod.mk.injEq] at heq
  have hax : a = x := (div_nat_inj (by omega) heq.1.symm)
  have hby : b = y := (div_nat_inj (by omega) heq.2.symm)
  rw [hax, hby] at hv
  exact hmem hv

theorem stepAcc_nodup {w h x y : ℕ} {acc : List (ℚ × ℚ)} {visited : List (ℕ × ℕ)}
    (hx : x < w) (hy : y < h) (hnodup : acc.Nodup) (hrepr : accRepr w h visited acc) :
    (stepAcc w h x y acc visited).Nodup := by
  rw [stepAcc]
  split
  · exact hnodup
  · next hmem =>
      refine List.Nodup.append hnodup (List.nodup_singleton _) ?_
      intro q hq hq2
      simp only [List.mem_singleton] at hq2
      rw [hq2] at hq
      exact stepAcc_not_mem hx hy hrepr hmem hq

theorem stepAcc_repr {w h x y : ℕ} {acc : List (ℚ × ℚ)} {visited : List (ℕ × ℕ)}
    (hx : x < w) (hy : y < h) (hrepr : accRepr w h visited acc) :
    accRepr w h (stepVisited x y visited) (stepAcc w h x y acc visited) := by
  intro q hq
  rw [stepVisited]
  rw [stepAcc] at hq
  by_cases hmem : (x, y) ∈ visited
  · rw [if_pos hmem] at hq ⊢
    exact hrepr q hq
  · rw [if_neg hmem] at hq ⊢
    rcases List.mem_append.mp hq with hq | hq
    · obtain ⟨a, b, hv, ha, hb, heq⟩ := hrepr q hq
      exact ⟨a, b, List.mem_cons_of_mem _ hv, ha, hb, heq⟩
    · simp only [List.mem_singleton] at hq
      exact ⟨x, y, List.mem_cons_self _ _, hx, hy, hq⟩

theorem traceLoop_inv (edges : ℕ → ℚ) (w h : ℕ) (thr : ℚ) (sx sy : ℕ) :
    ∀ (fuel x y lastDir : ℕ) (visited : List (ℕ × ℕ)) (acc : List (ℚ × ℚ)),
      x < w → y < h → acc.length < 5000 → acc.Nodup → accRepr w h visited acc →
      ((traceLoop edges w h thr sx sy fuel x y lastDir visited acc).length ≤ 5000 ∧
       (traceLoop edges w h thr sx sy fuel x y lastDir visited acc).Nodup ∧
       ∀ q ∈ traceLoop edges w h thr sx sy fuel x y lastDir visited acc,
         0 ≤ q.1 ∧ q.1 < 1 ∧ 0 ≤ q.2 ∧ q.2 < 1) := by
  intro fuel
  induction fuel with
  | zero =>
      intro x y lastDir visited acc _ _ hlen hnodup hrepr
      rw [traceLoop]
      exact ⟨by omega, hnodup, accRepr_range hrepr⟩
  | succ fuel ih =>
      intro x y lastDir visited acc hx hy hlen hnodup hrepr
      have hstep_all : (stepAcc w h x y acc visited).length ≤ 5000 ∧
          (stepAcc w h x y acc visited).Nodup ∧
          ∀ q ∈ stepAcc w h x y acc visited,
            0 ≤ q.1 ∧ q.1 < 1 ∧ 0 ≤ q.2 ∧ q.2 < 1 := by
        refine ⟨?_, stepAcc_nodup hx hy hnodup hrepr, ?_⟩
        · have hsl := @stepAcc_length w h x y acc visited
          omega
        · intro q hq
          obtain ⟨a, b, -, ha, hb, heq⟩ := stepAcc_repr hx hy hrepr q hq
          have haux : accRepr w h [(a, b)] [q] := by
            intro q2 hq2
            simp only [List.mem_singleton] at hq2
            exact ⟨a, b, List.mem_cons_self _ _, ha, hb, by rw [hq2, heq]⟩
          exact accRepr_range haux q (List.mem_singleton.mpr rfl)
      rw [traceLoop]
      cases hfind : findNext edges w h thr (stepVisited x y visited) x y lastDir with
      | none => exact hstep_all
      | some r =>
          obtain ⟨nx, ny, dir⟩ := r
          by_cases hcond : (nx, ny) ≠ (sx, sy) ∧
              (stepAcc w h x y acc visited).length < 5000
          · simp only [if_pos hcond]
            obtain ⟨hnx, hny, -⟩ := findNext_some hfind
            exact ih nx ny dir _ _ hnx hny hcond.2
              (stepAcc_nodup hx hy hnodup hrepr) (stepAcc_repr hx hy hrepr)
          · simp only [if_neg hcond]
            exact hstep_all

/-- C10.  For every edge grid and threshold the trace (a total function in
this model) returns at most 5000 points; the points are pairwise distinct
(each corresponds to a distinct visited pixel), and every returned
`(x/width, y/height)` has both coordinates in `[0, 1)`. -/
theorem c10_contour_trace_bounds (edges : ℕ → ℚ) (w h : ℕ) (thr : ℚ) :
    (traceContour edges w h thr).length ≤ 5000 ∧
    (traceContour edges w h thr).Nodup ∧
    ∀ q ∈ traceContour edges w h thr, 0 ≤ q.1 ∧ q.1 < 1 ∧ 0 ≤ q.2 ∧ q.2 < 1 := by
  rw [traceContour]
  cases hseed : findSeed edges w h thr with
  | none => exact ⟨by simp, List.nodup_nil, by simp⟩
  | some s =>
      obtain ⟨sx, sy⟩ := s
      obtain ⟨hsx, hsy⟩ := findSeed_some hseed
      exact traceLoop_inv edges w h thr sx sy (w * h + 5002) sx sy 0 [] []
        hsx hsy (by simp) List.nodup_nil (fun q hq => absurd hq (List.not_mem_nil q))

end StravaArt
